import Mathlib

/-!
Verification development for the ig-downloader repository.

The TypeScript sources under `src/` are shallowly embedded below:
pure functions become Lean functions, stateful loops become explicit
state passing, JS `Map` objects become association lists with JS
insertion-order semantics, fallible operations return `Except`/`Option`,
and the asynchronous browser/network environment is passed in as an
explicit "session outcome" value (the list of network responses seen,
the per-round DOM snapshots, the per-attempt fetch outcomes, ...).
JS strings are modelled as `String`/`List Char` over Unicode scalar
values; `string.length` is modelled as the code-point count.
-/

namespace IgDl

-- ===========================================================================
-- Generic string helpers (models of JS String.prototype operations)
-- ===========================================================================

/-- Model of JS `String.prototype.startsWith` on char lists. -/
def startsWithL : List Char → List Char → Bool
  | [], _ => true
  | _ :: _, [] => false
  | p :: ps, c :: cs => p == c && startsWithL ps cs

/-- Model of JS `String.prototype.includes` : does `pat` occur in the list. -/
def containsSub (pat : List Char) : List Char → Bool
  | [] => pat.isEmpty
  | c :: cs => startsWithL pat (c :: cs) || containsSub pat cs

/-- String-level wrapper for `containsSub`. -/
def containsSubstr (s pat : String) : Bool :=
  containsSub pat.toList s.toList

-- ===========================================================================
-- Model of src/cron-wizard.ts (downloader part): withRetry
-- (source lines 454-474 of the downloader module)
-- ===========================================================================

/-- Result of a run of the retry wrapper: the final outcome, the list of
backoff delays that were awaited (in order), and how many attempts ran. -/
structure RetryResult (α : Type) where
  result : Except String α
  delays : List Nat
  attempts : Nat
  deriving Repr

/-- Loop of `withRetry`, indexed by the number of remaining attempts.
`attempt` is the 0-based attempt counter of the source loop; the source
guard `attempt < maxRetries - 1` for sleeping is equivalent to
"there is at least one remaining attempt after this one", i.e.
`remaining ≠ 0` here.  The per-attempt outcome of the wrapped operation
is supplied by `fn`. -/
def withRetryGo (fn : Nat → Except String α) (baseDelay : Nat) :
    Nat → Nat → Option String → List Nat → Nat → RetryResult α
  | 0, _, lastError, delays, attempts =>
    ⟨Except.error (lastError.getD "All retry attempts failed"), delays, attempts⟩
  | remaining + 1, attempt, _, delays, attempts =>
    match fn attempt with
    | Except.ok v => ⟨Except.ok v, delays, attempts + 1⟩
    | Except.error e =>
      let delays' := if remaining = 0 then delays
        else delays ++ [baseDelay * 2 ^ attempt]
      withRetryGo fn baseDelay remaining (attempt + 1) (some e) delays' (attempts + 1)

/-- Model of `withRetry` (defaults in the source: maxRetries = 3,
baseDelay = 1000). -/
def withRetry (fn : Nat → Except String α) (maxRetries : Nat) (baseDelay : Nat) :
    RetryResult α :=
  withRetryGo fn baseDelay maxRetries 0 none [] 0

-- ===========================================================================
-- Model of src/cron-wizard.ts (downloader part): download tasks and batches
-- ===========================================================================

/-- Mirror of the `DownloadTask` interface. -/
structure DownloadTask where
  videoUrl : String
  username : String
  shortCode : String
  caption : Option String
  deriving Repr, DecidableEq

/-- Mirror of the `DownloadResult` interface. -/
structure DownloadResult where
  success : Bool
  shortCode : String
  filePath : String
  size : Option Nat
  sizeFormatted : Option String
  error : Option String
  caption : Option String
  deriving Repr, DecidableEq

/-- Outcome of one `Promise` as seen by `Promise.allSettled`. -/
inductive Settled (α : Type) where
  | fulfilled (value : α)
  | rejected (reason : Option String)
  deriving Repr, DecidableEq

/-- Accumulated state of the `batchDownload` loop: the two result
collections, the running `completed` counter and the list of progress
callback invocations `(completed, total, result)`. -/
structure BatchAcc where
  downloaded : List DownloadResult
  failed : List DownloadResult
  completed : Nat
  progress : List (Nat × Nat × DownloadResult)
  deriving Repr, DecidableEq

/-- Processing of one settled result inside `batchDownload`
(source lines 566-585 of the downloader module). -/
def processSettled (total : Nat) (acc : BatchAcc) (s : Settled DownloadResult) :
    BatchAcc :=
  let completed := acc.completed + 1
  match s with
  | Settled.fulfilled v =>
    if v.success then
      { downloaded := acc.downloaded ++ [v], failed := acc.failed,
        completed := completed, progress := acc.progress ++ [(completed, total, v)] }
    else
      { downloaded := acc.downloaded, failed := acc.failed ++ [v],
        completed := completed, progress := acc.progress ++ [(completed, total, v)] }
  | Settled.rejected reason =>
    let failResult : DownloadResult :=
      ⟨false, "unknown", "unknown", none, none, some (reason.getD "Unknown error"), none⟩
    { downloaded := acc.downloaded, failed := acc.failed ++ [failResult],
      completed := completed,
      progress := acc.progress ++ [(completed, total, failResult)] }

/-- Partition of the task list into consecutive slices of
`DOWNLOAD_BATCH_SIZE = 3`, as done by `tasks.slice(i, i + 3)` with
`i += 3`. -/
def toBatches3 : List α → List (List α)
  | [] => []
  | [a] => [[a]]
  | [a, b] => [[a, b]]
  | a :: b :: c :: rest => [a, b, c] :: toBatches3 rest

/-- Model of `batchDownload`.  The environment is the function `dl`
giving, for each task, the settled outcome of `downloadVideo` for it
(`downloadVideo` itself catches all errors, so in runs of the real
program every outcome is `fulfilled`; the `rejected` branch of the
source is modelled nonetheless). -/
def batchDownload (tasks : List DownloadTask)
    (dl : DownloadTask → Settled DownloadResult) : BatchAcc :=
  (toBatches3 tasks).foldl
    (fun acc batch => (batch.map dl).foldl (processSettled tasks.length) acc)
    ⟨[], [], 0, []⟩

-- ===========================================================================
-- Model of the HistoryManager (source embedded in src/config.test.ts,
-- lines 253-342 of that file)
-- ===========================================================================

/-- Mirror of the `DownloadRecord` interface. -/
structure DownloadRecord where
  shortCode : String
  filePath : String
  caption : Option String
  downloadedAt : String
  size : Option Nat
  deriving Repr, DecidableEq

/-- The fields of `addRecord`'s argument (`Omit<DownloadRecord, "downloadedAt">`). -/
structure PartialRecord where
  shortCode : String
  filePath : String
  caption : Option String
  size : Option Nat
  deriving Repr, DecidableEq

/-- Mirror of the `UserHistory` interface. -/
structure UserHistory where
  username : String
  downloads : List DownloadRecord
  deriving Repr, DecidableEq

/-- The `users` record of `HistoryData`: a JS object keyed by username,
modelled as an association list with unique keys in insertion order. -/
abbrev HistoryData : Type := List (String × UserHistory)

/-- The per-entry update performed by `addRecord` on the user map: on
the entry of `username`, append the record unless a record with the
same shortCode is already present; leave other entries alone. -/
def updateEntry (username : String) (r : PartialRecord) (now : String)
    (p : String × UserHistory) : String × UserHistory :=
  if p.1 == username then
    (p.1,
      if p.2.downloads.any (fun d => d.shortCode == r.shortCode) then p.2
      else ⟨p.2.username,
        p.2.downloads ++ [⟨r.shortCode, r.filePath, r.caption, now, r.size⟩]⟩)
  else p

/-- Model of `HistoryManager.addRecord` (the `downloadedAt` timestamp of
`new Date().toISOString()` is passed in as `now`).  First `ensureUser`
creates the per-user entry if absent, then the record is appended unless
a record with the same shortCode is already present. -/
def addRecord (data : HistoryData) (username : String) (r : PartialRecord)
    (now : String) : HistoryData :=
  let data' : HistoryData :=
    if data.any (fun p => p.1 == username) then data
    else data ++ [(username, ⟨username, []⟩)]
  data'.map (updateEntry username r now)

/-- Model of `HistoryManager.getDownloadedShortCodes`: the JS `Set` is
modelled as the list of shortCodes (membership is what the caller
queries). -/
def getDownloadedShortCodes (data : HistoryData) (username : String) :
    List String :=
  match data.find? (fun p => p.1 == username) with
  | none => []
  | some p => p.2.downloads.map (fun d => d.shortCode)

-- ===========================================================================
-- Model of the new-link filter of cmdRun (src/cli.ts lines 253-257)
-- and the task-building loop (lines 277-298)
-- ===========================================================================

/-- Model of `extractShortCode` (src/extractor.ts lines 87-90): first
match of the regex `\/(p|reel|tv)\/([A-Za-z0-9_-]+)` in the URL,
returning the second capture group.  The scan tries, at each position,
the three alternatives `/p/`, `/reel/`, `/tv/` and then requires at
least one word character, taking the maximal run (greedy `+`). -/
def scWordChar (c : Char) : Bool :=
  c.isAlpha || c.isDigit || c == '_' || c == '-'

/-- Remainder of the char list after one of the three path markers, if a
marker starts at this position. -/
def scAt (l : List Char) : Option (List Char) :=
  if startsWithL ['/', 'p', '/'] l then some (l.drop 3)
  else if startsWithL ['/', 'r', 'e', 'e', 'l', '/'] l then some (l.drop 6)
  else if startsWithL ['/', 't', 'v', '/'] l then some (l.drop 4)
  else none

/-- Left-to-right scan of the regex match. -/
def scanSC : List Char → Option String
  | [] => none
  | c :: rest =>
    match scAt (c :: rest) with
    | some rem =>
      let w := rem.takeWhile scWordChar
      if w.isEmpty then scanSC rest else some (String.mk w)
    | none => scanSC rest

/-- Model of `extractShortCode`. -/
def extractShortCode (url : String) : Option String :=
  scanSC url.toList

/-- Model of the filter in `cmdRun`:
`reelLinks.filter(link => { const code = extractShortCode(link); return code && !downloadedCodes.has(code); })`. -/
def filterNewLinks (reelLinks : List String) (downloadedCodes : List String) :
    List String :=
  reelLinks.filter (fun link =>
    match extractShortCode link with
    | some code => !downloadedCodes.contains code
    | none => false)

-- ===========================================================================
-- Model of src/extractor.ts: parseEfgParam (lines 51-74)
-- ===========================================================================

/-- Result type of `parseEfgParam`. -/
structure EfgResult where
  bitrate : Int
  quality : String
  isAudio : Bool
  deriving Repr, DecidableEq

/-- The defaults returned by `parseEfgParam` when the `efg` query
parameter is absent, or when URL parsing, base64 decoding or
`JSON.parse` throws. -/
def efgDefaults : EfgResult := ⟨0, "unknown", false⟩

/-- Abstraction of the successfully decoded `efg` payload: the decode
pipeline `new URL` / `Buffer.from(..., "base64")` / `JSON.parse` is
platform library code, so its outcome is an input of the model.
`bitrateField` is `some n` iff `typeof data.bitrate === "number"`, and
`jsonStr` is `JSON.stringify(data)`. -/
structure EfgData where
  bitrateField : Option Int
  jsonStr : String
  deriving Repr, DecidableEq

/-- First match of the regex `q(\d{2})` : a literal `q` followed by two
digits, scanning left to right. -/
def qMatch : List Char → Option (Char × Char)
  | 'q' :: a :: b :: rest =>
    if a.isDigit && b.isDigit then some (a, b) else qMatch (a :: b :: rest)
  | _ :: rest => qMatch rest
  | [] => none

/-- The `AUDIO_INDICATORS` constant. -/
def audioIndicators : List String := ["audio", "dash_ln_heaac"]

/-- Model of `parseEfgParam`.  The argument is `none` when the `efg`
parameter is absent or any step of the decode pipeline throws
(the `catch` branch of the source); otherwise it carries the decoded
JSON payload. -/
def parseEfgParam : Option EfgData → EfgResult
  | none => efgDefaults
  | some d =>
    let bitrate := d.bitrateField.getD 0
    let quality :=
      match qMatch d.jsonStr.toList with
      | some p => String.mk ['q', p.1, p.2]
      | none => "unknown"
    let lower := String.mk (d.jsonStr.toList.map Char.toLower)
    let isAudio := audioIndicators.any (fun ind => containsSub ind.toList lower.toList)
    ⟨bitrate, quality, isAudio⟩

-- ===========================================================================
-- Model of src/extractor.ts: response capture in extractFromPost
-- (lines 170-232) and stripByteRangeParams (lines 76-85)
-- ===========================================================================

/-- A network response as seen by the `onResponse` listener.  The URL is
kept in parsed form (`new URL` applied): `base` is everything before the
query string and `params` the search parameters in order.  `efg` is the
decoded `efg` payload as in `parseEfgParam`. -/
structure NetResponse where
  base : String
  params : List (String × String)
  efg : Option EfgData
  deriving Repr, DecidableEq

/-- Serialization of the query parameters, as in `URL.toString()`. -/
def renderQuery : List (String × String) → String
  | [] => ""
  | [(k, v)] => k ++ "=" ++ v
  | (k, v) :: p :: ps => k ++ "=" ++ v ++ "&" ++ renderQuery (p :: ps)

/-- The full URL string of a response (`response.url()` /
`urlObj.toString()`). -/
def urlString (r : NetResponse) : String :=
  r.base ++ (if r.params.isEmpty then "" else "?" ++ renderQuery r.params)

/-- Model of `stripByteRangeParams`: delete the `bytestart` and
`byteend` search parameters. -/
def stripByteRangeParams (r : NetResponse) : NetResponse :=
  ⟨r.base, r.params.filter (fun p => !(p.1 == "bytestart") && !(p.1 == "byteend")), r.efg⟩

/-- One entry of the `captured` map (`CapturedVideo` in the source). -/
structure CapturedVideo where
  url : String
  bitrate : Int
  quality : String
  deriving Repr, DecidableEq

/-- The `captured` JS `Map`, as an association list in insertion order
with unique keys. -/
abbrev CapturedMap : Type := List (String × CapturedVideo)

/-- `Map.prototype.get`. -/
def mapGet : CapturedMap → String → Option CapturedVideo
  | [], _ => none
  | p :: ps, k => if p.1 == k then some p.2 else mapGet ps k

/-- `Map.prototype.set`: replace in place if the key is present
(keeping its position), otherwise append. -/
def mapSet : CapturedMap → String → CapturedVideo → CapturedMap
  | [], k, v => [(k, v)]
  | p :: ps, k, v => if p.1 == k then (k, v) :: ps else p :: mapSet ps k v

/-- The URL filter of the listener:
`resUrl.includes(".mp4") && resUrl.includes("cdninstagram.com")`. -/
def urlFilter (r : NetResponse) : Bool :=
  containsSubstr (urlString r) ".mp4" && containsSubstr (urlString r) "cdninstagram.com"

/-- The normalized URL used as dedup key. -/
def keyOf (r : NetResponse) : String :=
  urlString (stripByteRangeParams r)

/-- The map entry built from a response. -/
def entryOf (r : NetResponse) : CapturedVideo :=
  ⟨keyOf r, (parseEfgParam r.efg).bitrate, (parseEfgParam r.efg).quality⟩

/-- Model of the `onResponse` listener body (lines 175-187): filter by
URL shape, drop audio-only streams, then keep per normalized URL the
entry with the strictly greater bitrate. -/
def onResponse (captured : CapturedMap) (r : NetResponse) : CapturedMap :=
  if !urlFilter r then captured
  else if (parseEfgParam r.efg).isAudio then captured
  else
    match mapGet captured (keyOf r) with
    | none => mapSet captured (keyOf r) (entryOf r)
    | some existing =>
      if (parseEfgParam r.efg).bitrate > existing.bitrate then
        mapSet captured (keyOf r) (entryOf r)
      else captured

/-- The state of the `captured` map after all responses of the session
have been observed: a pure fold of `onResponse` over the response
list. -/
def capturedOf (responses : List NetResponse) : CapturedMap :=
  responses.foldl onResponse []

/-- Whether a response survives both listener filters. -/
def admitted (r : NetResponse) : Bool :=
  urlFilter r && !(parseEfgParam r.efg).isAudio

/-- Specification-side reduction (from the spec's words: "among entries
sharing a normalized URL, keep the one with the greatest bitrate (ties
resolved by first-seen)"): combine two candidates, keeping the earlier
one unless the later has strictly greater bitrate. -/
def pickBetter (acc : Option CapturedVideo) (r : NetResponse) : Option CapturedVideo :=
  match acc with
  | none => some (entryOf r)
  | some v => if (entryOf r).bitrate > v.bitrate then some (entryOf r) else some v

/-- Specification-side description of the entry retained for a
normalized URL `k`: the max-bitrate, first-seen-on-ties reduction of
the admitted responses whose normalized URL is `k`. -/
def bestEntry (responses : List NetResponse) (k : String) : Option CapturedVideo :=
  ((responses.filter admitted).filter (fun r => keyOf r == k)).foldl pickBetter none

-- ===========================================================================
-- Model of src/extractor.ts: extractFromPost result assembly
-- ===========================================================================

/-- Stable insertion of a captured video into a list sorted by
descending bitrate, as `Array.prototype.sort` with comparator
`(a, b) => b.bitrate - a.bitrate` produces. -/
def insertByBitrate (v : CapturedVideo) : List CapturedVideo → List CapturedVideo
  | [] => [v]
  | w :: ws => if v.bitrate > w.bitrate then v :: w :: ws else w :: insertByBitrate v ws

/-- Stable sort by descending bitrate. -/
def sortByBitrateDesc : List CapturedVideo → List CapturedVideo
  | [] => []
  | v :: vs => insertByBitrate v (sortByBitrateDesc vs)

/-- Mirror of the `VideoInfo` interface.  `shortCode` is an `Option`
because the spread `{ shortCode, ...metadata }` in the source lets
`metadata.shortCode = extractShortCode(url) || undefined` override the
earlier field. -/
structure VideoInfo where
  url : String
  quality : String
  bitrate : Int
  shortCode : Option String
  caption : Option String
  username : Option String
  views : Option String
  deriving Repr, DecidableEq

/-- Mirror of the `ExtractResult` interface. -/
structure ExtractResult where
  success : Bool
  videos : List VideoInfo
  error : Option String
  deriving Repr, DecidableEq

/-- Best-effort page metadata, as assembled by `extractMetadata`
(which catches its own errors internally and never fails). -/
structure Metadata where
  caption : Option String
  username : Option String
  views : Option String
  deriving Repr, DecidableEq

/-- Outcome of the browsing session driven by `extractFromPost`: either
the page interactions complete and the listener has observed the given
responses, or some step (`page.goto`, popup handling, waits, ...)
throws with a message. -/
inductive PostSession where
  | ok (responses : List NetResponse) (md : Metadata)
  | err (msg : String)

/-- The error message of the zero-capture branch. -/
def noVideoError : String :=
  "No video URLs captured. The post may not contain a video, or it may require login."

/-- Model of `extractFromPost` (lines 170-232): on a session error the
catch branch reports failure; on zero captures a failure result is
returned; otherwise the captured entries are sorted by descending
bitrate and dressed up as `VideoInfo`s. -/
def extractFromPost (url : String) (s : PostSession) : ExtractResult :=
  match s with
  | PostSession.err msg => ⟨false, [], some ("Extract error: " ++ msg)⟩
  | PostSession.ok responses md =>
    let captured := capturedOf responses
    if captured.isEmpty then ⟨false, [], some noVideoError⟩
    else
      let sorted := sortByBitrateDesc (captured.map (fun p => p.2))
      ⟨true,
        sorted.map (fun v =>
          ⟨v.url, v.quality, v.bitrate, extractShortCode url,
            md.caption, md.username, md.views⟩),
        none⟩

-- ===========================================================================
-- Model of src/extractor.ts: collectReelLinks (lines 238-299)
-- ===========================================================================

/-- First-occurrence deduplication, as `[...new Set(hrefs)]`. -/
def dedupAux : List String → List String → List String
  | [], _ => []
  | x :: xs, seen =>
    if seen.contains x then dedupAux xs seen else x :: dedupAux xs (x :: seen)

/-- `[...new Set(l)]`. -/
def dedup (l : List String) : List String := dedupAux l []

/-- The scroll loop of `collectReelLinks`.  `snap i` is the list of
hrefs present in the DOM at round `i` and `time i` the elapsed
wall-clock milliseconds at the `i`-th loop-condition check; `fuel`
bounds the number of modelled rounds (the theorems supply enough fuel
for the loop to hit one of its own exits). -/
def collectLoop (maxVideos scrollTimeout : Nat) (snap : Nat → List String)
    (time : Nat → Nat) : Nat → Nat → List String → Nat → List String
  | 0, _, reelLinks, _ => reelLinks
  | fuel + 1, i, reelLinks, stableRounds =>
    if reelLinks.length < maxVideos ∧ time i < scrollTimeout then
      if (dedup (snap i)).length ≥ maxVideos then dedup (snap i)
      else if (dedup (snap i)).length = reelLinks.length then
        if stableRounds + 1 ≥ 3 then dedup (snap i)
        else collectLoop maxVideos scrollTimeout snap time fuel (i + 1)
          (dedup (snap i)) (stableRounds + 1)
      else collectLoop maxVideos scrollTimeout snap time fuel (i + 1) (dedup (snap i)) 0
    else reelLinks

/-- Outcome of the browsing session driven by `collectReelLinks`. -/
inductive CollectSession where
  | ok (snap : Nat → List String) (time : Nat → Nat)
  | err (msg : String)

/-- Model of `collectReelLinks`: on any session error the catch branch
returns `[]`; otherwise the scroll loop runs and the final result is
truncated to `maxVideos` (`reelLinks.slice(0, maxVideos)`). -/
def collectReelLinks (username : String) (maxVideos scrollTimeout : Nat)
    (s : CollectSession) (fuel : Nat) : List String :=
  match s with
  | CollectSession.err _ => []
  | CollectSession.ok snap time =>
    (collectLoop maxVideos scrollTimeout snap time fuel 0 [] 0).take maxVideos

-- ===========================================================================
-- Model of the task-building loop of cmdRun (src/cli.ts lines 277-298)
-- ===========================================================================

/-- Model of the per-link extraction loop building `DownloadTask`s:
links without an extractable shortCode are skipped, failed or empty
extractions are skipped, otherwise the first (highest-bitrate) video
becomes a task. -/
def buildTasks (username : String) (newLinks : List String)
    (resolve : String → ExtractResult) : List DownloadTask :=
  newLinks.foldl (fun tasks link =>
    match extractShortCode link with
    | none => tasks
    | some shortCode =>
      let result := resolve link
      match result.videos with
      | [] => tasks
      | best :: _ =>
        if result.success then
          tasks ++ [⟨best.url, username, (best.shortCode.getD shortCode), best.caption⟩]
        else tasks) []

-- ===========================================================================
-- Model of sanitizeFilename (src/cron-wizard.ts, downloader part,
-- lines 417-448)
-- ===========================================================================

/-- The whitespace class of JS regexes (`\s`) and of `String.trim`,
by code point: space, tab, LF, VT, FF, CR, NBSP, ogham, the
en-quad..hair-space range, line/paragraph separators, NNBSP, MMSP,
ideographic space and the BOM. -/
def jsSpace (c : Char) : Bool :=
  c.toNat == 32 || c.toNat == 9 || c.toNat == 10 || c.toNat == 13 ||
  c.toNat == 0x0b || c.toNat == 0x0c || c.toNat == 0xa0 ||
  c.toNat == 0x1680 || (0x2000 ≤ c.toNat && c.toNat ≤ 0x200a) ||
  c.toNat == 0x2028 || c.toNat == 0x2029 || c.toNat == 0x202f ||
  c.toNat == 0x205f || c.toNat == 0x3000 || c.toNat == 0xfeff

/-- The emoji character class removed first (the union of code-point
ranges of the source regex, matched per code point under the `u`
flag). -/
def isEmojiChar (c : Char) : Bool :=
  (0x1F600 ≤ c.toNat && c.toNat ≤ 0x1F64F) ||
  (0x1F300 ≤ c.toNat && c.toNat ≤ 0x1F5FF) ||
  (0x1F680 ≤ c.toNat && c.toNat ≤ 0x1F6FF) ||
  (0x1F1E0 ≤ c.toNat && c.toNat ≤ 0x1F1FF) ||
  (0x2600 ≤ c.toNat && c.toNat ≤ 0x26FF) ||
  (0x2700 ≤ c.toNat && c.toNat ≤ 0x27BF) ||
  (0xFE00 ≤ c.toNat && c.toNat ≤ 0xFE0F) ||
  (0x1F900 ≤ c.toNat && c.toNat ≤ 0x1F9FF) ||
  (0x1FA00 ≤ c.toNat && c.toNat ≤ 0x1FA6F) ||
  (0x1FA70 ≤ c.toNat && c.toNat ≤ 0x1FAFF) ||
  c.toNat == 0x200D || c.toNat == 0x20E3

/-- Scanner for `.replace(/m\S+/g, "")` with `m` the marker char
(`#` or `@`).  The Boolean flag is true while inside a matched
`\S+` run being deleted. -/
def removeTagsA (m : Char) : Bool → List Char → List Char
  | _, [] => []
  | true, c :: rest =>
    if jsSpace c then c :: removeTagsA m false rest
    else removeTagsA m true rest
  | false, [c] => [c]
  | false, c :: d :: ds =>
    if c == m then
      (if jsSpace d then c :: removeTagsA m false (d :: ds)
        else removeTagsA m true ds)
    else c :: removeTagsA m false (d :: ds)

/-- `.replace(/#\S+/g, "")` resp. `.replace(/@\S+/g, "")`. -/
def removeTags (m : Char) (l : List Char) : List Char :=
  removeTagsA m false l

/-- The filesystem-reserved character class `[/\\:*?"<>|]`, by code
point. -/
def reservedChar (c : Char) : Bool :=
  c.toNat == 47 || c.toNat == 92 || c.toNat == 58 || c.toNat == 42 ||
  c.toNat == 63 || c.toNat == 34 || c.toNat == 60 || c.toNat == 62 ||
  c.toNat == 124

/-- `.replace(/[/\\:*?"<>|]/g, "_")`. -/
def replaceUnsafe (l : List Char) : List Char :=
  l.map (fun c => if reservedChar c then '_' else c)

/-- The separator class `[\s_]` of the collapse step. -/
def sepSC (c : Char) : Bool := jsSpace c || c == '_'

/-- Scanner for `.replace(/[\s_]+/g, "_")`; the flag is true while
inside a separator run already replaced by one underscore. -/
def collapseSepA : Bool → List Char → List Char
  | _, [] => []
  | inRun, c :: rest =>
    if sepSC c then
      if inRun then collapseSepA true rest else '_' :: collapseSepA true rest
    else c :: collapseSepA false rest

/-- `.replace(/[\s_]+/g, "_")`. -/
def collapseSep (l : List Char) : List Char := collapseSepA false l

/-- The edge-separator class `[_.\s]` of the trim step. -/
def sepTrim (c : Char) : Bool := jsSpace c || c == '_' || c == '.'

/-- `.replace(/^[_.\s]+|[_.\s]+$/g, "")`: remove the leading and the
trailing run of edge separators. -/
def trimSep (l : List Char) : List Char :=
  ((l.dropWhile sepTrim).reverse.dropWhile sepTrim).reverse

/-- JS `String.prototype.trim`. -/
def jsTrim (l : List Char) : List Char :=
  ((l.dropWhile jsSpace).reverse.dropWhile jsSpace).reverse

/-- `.replace(/_+$/, "")`. -/
def dropTrailingUnderscores (l : List Char) : List Char :=
  (l.reverse.dropWhile (fun c => c == '_')).reverse

/-- The `MAX_FILENAME_LENGTH` constant. -/
def maxFilenameLength : Nat := 80

/-- The cleaning pipeline applied to a caption (the chained `.replace`
calls plus the final `.trim()`). -/
def cleanName (cap : List Char) : List Char :=
  jsTrim (trimSep (collapseSep (replaceUnsafe
    (removeTags '@' (removeTags '#' (cap.filter (fun c => !isEmojiChar c)))))))

/-- Model of `sanitizeFilename` on char lists.  `caption = none` models
a JS `undefined` caption; the `!caption` test also catches the empty
string, and `caption.trim().length === 0` the whitespace-only case. -/
def sanitizeFilenameL (caption : Option (List Char)) (shortCode : List Char) :
    List Char :=
  match caption with
  | none => shortCode
  | some cap =>
    if (jsTrim cap).length = 0 then shortCode
    else
      let name0 := cleanName cap
      if name0.length = 0 then shortCode
      else
        let name :=
          if name0.length > maxFilenameLength then
            dropTrailingUnderscores (name0.take maxFilenameLength)
          else name0
        name ++ '_' :: shortCode

/-- String-level wrapper for `sanitizeFilename`. -/
def sanitizeFilename (caption : Option String) (shortCode : String) : String :=
  String.mk (sanitizeFilenameL (caption.map String.toList) shortCode.toList)

/-- A sequence of `addRecord` calls applied to the initial empty history
(`this.data = { users: {} }`); each operation is
`(username, record, now)`. -/
def applyOps (ops : List (String × PartialRecord × String)) : HistoryData :=
  ops.foldl (fun d o => addRecord d o.1 o.2.1 o.2.2) []

-- ===========================================================================
-- Lemmas about withRetry
-- ===========================================================================

theorem withRetryGo_attempts_le (fn : Nat → Except String α) (baseDelay : Nat) :
    ∀ (remaining attempt : Nat) (le : Option String) (de : List Nat) (a : Nat),
      (withRetryGo fn baseDelay remaining attempt le de a).attempts ≤ a + remaining := by
  intro remaining
  induction remaining with
  | zero => intro attempt le de a; simp [withRetryGo]
  | succ r ih =>
    intro attempt le de a
    rw [withRetryGo]
    cases h : fn attempt with
    | ok v => simp
    | error e =>
      simp only []
      exact le_trans (ih (attempt + 1) (some e) _ (a + 1)) (by omega)

theorem withRetryGo_delays_le (fn : Nat → Except String α) (baseDelay : Nat) :
    ∀ (remaining attempt : Nat) (le : Option String) (de : List Nat) (a : Nat),
      (withRetryGo fn baseDelay remaining attempt le de a).delays.length ≤
        de.length + (remaining - 1) := by
  intro remaining
  induction remaining with
  | zero => intro attempt le de a; simp [withRetryGo]
  | succ r ih =>
    intro attempt le de a
    rw [withRetryGo]
    cases h : fn attempt with
    | ok v => simp
    | error e =>
      simp only []
      by_cases hr : r = 0
      · subst hr
        simp [withRetryGo]
      · have := ih (attempt + 1) (some e) (de ++ [baseDelay * 2 ^ attempt]) (a + 1)
        simp only [if_neg hr]
        calc (withRetryGo fn baseDelay r (attempt + 1) (some e)
                (de ++ [baseDelay * 2 ^ attempt]) (a + 1)).delays.length
            ≤ (de ++ [baseDelay * 2 ^ attempt]).length + (r - 1) := this
          _ ≤ de.length + (r + 1 - 1) := by simp; omega

/-- C2: the retry wrapper performs up to 3 attempts; between consecutive
attempts it waits `base * 2 ^ i` milliseconds; an operation failing
twice then succeeding on the third attempt returns success with backoff
delays `[base, 2*base]` (total at least `base + 2*base`); no delay
follows the final attempt (at most 2 delays for 3 attempts); exhausting
all attempts surfaces the error of the last attempt. -/
theorem withRetry_spec_c2 (fn : Nat → Except String α) (base : Nat) :
    (withRetry fn 3 base).attempts ≤ 3 ∧
    (withRetry fn 3 base).delays.length ≤ 2 ∧
    (∀ e0 e1 v, fn 0 = Except.error e0 → fn 1 = Except.error e1 →
      fn 2 = Except.ok v →
      withRetry fn 3 base = ⟨Except.ok v, [base * 1, base * 2], 3⟩ ∧
      base + 2 * base ≤ (withRetry fn 3 base).delays.sum) ∧
    (∀ e0 e1 e2, fn 0 = Except.error e0 → fn 1 = Except.error e1 →
      fn 2 = Except.error e2 →
      withRetry fn 3 base = ⟨Except.error e2, [base * 1, base * 2], 3⟩) := by
  refine ⟨?_, ?_, ?_, ?_⟩
  · simpa using withRetryGo_attempts_le fn base 3 0 none [] 0
  · simpa using withRetryGo_delays_le fn base 3 0 none [] 0
  · intro e0 e1 v h0 h1 h2
    constructor
    · simp [withRetry, withRetryGo, h0, h1, h2]
    · simp [withRetry, withRetryGo, h0, h1, h2]
      omega
  · intro e0 e1 e2 h0 h1 h2
    simp [withRetry, withRetryGo, h0, h1, h2]

/-- Witness for `withRetry_spec_c2` at a concrete operation that fails
twice and then succeeds. -/
theorem withRetry_spec_c2_witness :
    withRetry (fun i => if i < 2 then Except.error "boom" else Except.ok 42) 3 1000 =
      ⟨Except.ok 42, [1000 * 1, 1000 * 2], 3⟩ ∧
    1000 + 2 * 1000 ≤
      (withRetry (fun i => if i < 2 then Except.error "boom" else Except.ok 42)
        3 1000).delays.sum :=
  (withRetry_spec_c2
    (fun i => if i < 2 then Except.error "boom" else Except.ok 42) 1000).2.2.1
    "boom" "boom" 42 rfl rfl rfl

-- ===========================================================================
-- Lemmas about batchDownload
-- ===========================================================================

theorem toBatches3_flatten (l : List α) : (toBatches3 l).flatten = l := by
  induction l using toBatches3.induct with
  | case1 => rfl
  | case2 a => rfl
  | case3 a b => rfl
  | case4 a b c rest ih => simp [toBatches3, ih]

theorem toBatches3_short (l : List α) :
    ∀ b ∈ toBatches3 l, b.length ≤ 3 ∧ b ≠ [] := by
  induction l using toBatches3.induct with
  | case1 => intro b hb; simp [toBatches3] at hb
  | case2 a => intro b hb; simp [toBatches3] at hb; simp [hb]
  | case3 a b' => intro b hb; simp [toBatches3] at hb; simp [hb]
  | case4 a b' c rest ih =>
    intro b hb
    simp only [toBatches3, List.mem_cons] at hb
    rcases hb with rfl | hb
    · simp
    · exact ih b hb

theorem foldl_batches_eq (dl : DownloadTask → Settled DownloadResult)
    (f : BatchAcc → Settled DownloadResult → BatchAcc) :
    ∀ (bs : List (List DownloadTask)) (acc : BatchAcc),
      bs.foldl (fun a b => (b.map dl).foldl f a) acc =
        (bs.flatten.map dl).foldl f acc := by
  intro bs
  induction bs with
  | nil => intro acc; rfl
  | cons b bs ih =>
    intro acc
    simp only [List.foldl_cons, List.flatten_cons, List.map_append,
      List.foldl_append]
    exact ih _

theorem processSettled_fold_char (total : Nat) :
    ∀ (S : List (Settled DownloadResult)) (acc : BatchAcc),
      (S.foldl (processSettled total) acc).downloaded.length +
          (S.foldl (processSettled total) acc).failed.length =
        acc.downloaded.length + acc.failed.length + S.length ∧
      (S.foldl (processSettled total) acc).completed = acc.completed + S.length ∧
      ∃ extra,
        (S.foldl (processSettled total) acc).progress = acc.progress ++ extra ∧
        extra.map (fun p => p.1) = List.range' (acc.completed + 1) S.length ∧
        extra.map (fun p => p.2.1) = List.replicate S.length total := by
  intro S
  induction S with
  | nil =>
    intro acc
    refine ⟨by simp, by simp, [], by simp⟩
  | cons s S ih =>
    intro acc
    have hstep :
        (processSettled total acc s).downloaded.length +
            (processSettled total acc s).failed.length =
          acc.downloaded.length + acc.failed.length + 1 ∧
        (processSettled total acc s).completed = acc.completed + 1 ∧
        ∃ r, (processSettled total acc s).progress =
          acc.progress ++ [(acc.completed + 1, total, r)] := by
      cases s with
      | fulfilled v =>
        by_cases hv : v.success
        · exact ⟨by simp [processSettled, hv]; omega, by simp [processSettled, hv],
            v, by simp [processSettled, hv]⟩
        · exact ⟨by simp [processSettled, hv]; omega, by simp [processSettled, hv],
            v, by simp [processSettled, hv]⟩
      | rejected reason =>
        exact ⟨by simp [processSettled]; omega, by simp [processSettled],
          ⟨false, "unknown", "unknown", none, none,
            some (reason.getD "Unknown error"), none⟩,
          by simp [processSettled]⟩
    obtain ⟨hc, hcomp, r, hprog⟩ := hstep
    obtain ⟨ihc, ihcomp, extra, ihprog, ihfst, ihsnd⟩ := ih (processSettled total acc s)
    refine ⟨?_, ?_, ?_⟩
    · rw [List.foldl_cons]; simp only [List.length_cons]; omega
    · rw [List.foldl_cons, ihcomp, hcomp]; simp only [List.length_cons]; omega
    · refine ⟨(acc.completed + 1, total, r) :: extra, ?_, ?_, ?_⟩
      · rw [List.foldl_cons, ihprog, hprog, List.append_assoc]
        rfl
      · simp only [List.map_cons, ihfst, hcomp, List.length_cons, List.range'_succ]
      · simp only [List.map_cons, ihsnd, hcomp, List.length_cons, List.replicate_succ]

/-- C3: `batchDownload` partitions tasks into consecutive batches of at
most 3 processed in sequence, classifies every task into exactly one of
the `downloaded` or `failed` collections, and invokes the progress
callback exactly once per task with a running `(completed, total)`
counter; for 3 tasks where the second fails, `downloaded` has length 2,
`failed` length 1 and the callback fires exactly 3 times. -/
theorem batchDownload_spec_c3 (tasks : List DownloadTask)
    (dl : DownloadTask → Settled DownloadResult) :
    (toBatches3 tasks).flatten = tasks ∧
    (∀ b ∈ toBatches3 tasks, b.length ≤ 3 ∧ b ≠ []) ∧
    (batchDownload tasks dl).downloaded.length +
        (batchDownload tasks dl).failed.length = tasks.length ∧
    (batchDownload tasks dl).progress.length = tasks.length ∧
    (batchDownload tasks dl).progress.map (fun p => p.1) =
      List.range' 1 tasks.length ∧
    (batchDownload tasks dl).progress.map (fun p => p.2.1) =
      List.replicate tasks.length tasks.length ∧
    (∀ t1 t2 t3 r1 r2 r3, tasks = [t1, t2, t3] →
      dl t1 = Settled.fulfilled r1 → dl t2 = Settled.fulfilled r2 →
      dl t3 = Settled.fulfilled r3 →
      r1.success = true → r2.success = false → r3.success = true →
      (batchDownload tasks dl).downloaded.length = 2 ∧
      (batchDownload tasks dl).failed.length = 1 ∧
      (batchDownload tasks dl).progress.length = 3) := by
  have hb : batchDownload tasks dl =
      (tasks.map dl).foldl (processSettled tasks.length) ⟨[], [], 0, []⟩ := by
    rw [batchDownload, foldl_batches_eq, toBatches3_flatten]
  obtain ⟨hcount, hcomp, extra, hprog, hfst, hsnd⟩ :=
    processSettled_fold_char tasks.length (tasks.map dl) ⟨[], [], 0, []⟩
  rw [← hb] at hcount hcomp hprog
  simp only [List.length_map] at hcount hcomp hfst hsnd
  simp only [List.nil_append] at hprog
  refine ⟨toBatches3_flatten tasks, toBatches3_short tasks, by simpa using hcount,
    ?_, ?_, ?_, ?_⟩
  · rw [hprog]
    have := congrArg List.length hfst
    simpa using this
  · rw [hprog, hfst]
  · rw [hprog, hsnd]
  · intro t1 t2 t3 r1 r2 r3 htasks h1 h2 h3 hs1 hs2 hs3
    subst htasks
    rw [hb]
    simp [h1, h2, h3, processSettled, hs1, hs2, hs3]

/-- Witness for `batchDownload_spec_c3` at the concrete 3-task scenario
of the spec (task 2 fails, tasks 1 and 3 succeed). -/
theorem batchDownload_spec_c3_witness :
    (batchDownload
      [⟨"u1", "u", "c1", none⟩, ⟨"u2", "u", "c2", none⟩, ⟨"u3", "u", "c3", none⟩]
      (fun t =>
        Settled.fulfilled
          ⟨!(t.shortCode == "c2"), t.shortCode, "f", none, none, none, none⟩)).downloaded.length = 2 ∧
    (batchDownload
      [⟨"u1", "u", "c1", none⟩, ⟨"u2", "u", "c2", none⟩, ⟨"u3", "u", "c3", none⟩]
      (fun t =>
        Settled.fulfilled
          ⟨!(t.shortCode == "c2"), t.shortCode, "f", none, none, none, none⟩)).failed.length = 1 ∧
    (batchDownload
      [⟨"u1", "u", "c1", none⟩, ⟨"u2", "u", "c2", none⟩, ⟨"u3", "u", "c3", none⟩]
      (fun t =>
        Settled.fulfilled
          ⟨!(t.shortCode == "c2"), t.shortCode, "f", none, none, none, none⟩)).progress.length = 3 :=
  (batchDownload_spec_c3 _ _).2.2.2.2.2.2 _ _ _ _ _ _ rfl rfl rfl rfl rfl rfl rfl

-- ===========================================================================
-- Lemmas about the HistoryManager model
-- ===========================================================================

theorem updateEntry_fst (h : String) (r : PartialRecord) (now : String)
    (p : String × UserHistory) :
    (updateEntry h r now p).1 = p.1 := by
  rw [updateEntry]
  by_cases hp : p.1 == h
  · rw [if_pos hp]
  · rw [if_neg hp]

theorem updateEntry_nokey (h : String) (r : PartialRecord) (now : String)
    (p : String × UserHistory) (hp : (p.1 == h) = false) :
    updateEntry h r now p = p := by
  rw [updateEntry, hp]
  rfl

theorem find_map_keep (f : String × UserHistory → String × UserHistory)
    (hf : ∀ p, (f p).1 = p.1) (h' : String) :
    ∀ l : HistoryData,
      (l.map f).find? (fun p => p.1 == h') =
        (l.find? (fun p => p.1 == h')).map f := by
  intro l
  induction l with
  | nil => rfl
  | cons p ps ih =>
    simp only [List.map_cons, List.find?_cons]
    rw [hf p]
    by_cases hp : p.1 == h'
    · simp [hp]
    · simp only [hp, cond_false]
      exact ih

theorem any_shortCode_iff (l : List DownloadRecord) (s : String) :
    l.any (fun d => d.shortCode == s) = true ↔ s ∈ l.map (fun d => d.shortCode) := by
  simp only [List.any_eq_true, List.mem_map, beq_iff_eq]

theorem gds_addRecord (data : HistoryData) (h : String) (r : PartialRecord)
    (now : String) (h' : String) :
    getDownloadedShortCodes (addRecord data h r now) h' =
      if h' = h then
        (if r.shortCode ∈ getDownloadedShortCodes data h
          then getDownloadedShortCodes data h
          else getDownloadedShortCodes data h ++ [r.shortCode])
      else getDownloadedShortCodes data h' := by
  simp only [addRecord]
  by_cases hu : data.any (fun p => p.1 == h)
  · rw [if_pos hu]
    rw [getDownloadedShortCodes,
      find_map_keep (updateEntry h r now) (updateEntry_fst h r now)]
    by_cases hh : h' = h
    · subst hh
      obtain ⟨q, hq, hqh⟩ := List.any_eq_true.mp hu
      have hfind : (data.find? (fun p => p.1 == h')).isSome := by
        rw [List.find?_isSome]; exact ⟨q, hq, hqh⟩
      obtain ⟨p, hp⟩ := Option.isSome_iff_exists.mp hfind
      have hph : (p.1 == h') = true := by
        have := List.find?_some hp
        simpa using this
      rw [hp]
      simp only [Option.map_some']
      rw [if_pos trivial, getDownloadedShortCodes, hp, updateEntry, if_pos hph]
      by_cases hmem : r.shortCode ∈ p.2.downloads.map (fun d => d.shortCode)
      · rw [if_pos hmem,
          if_pos ((any_shortCode_iff p.2.downloads r.shortCode).mpr hmem)]
      · rw [if_neg hmem]
        have hany : p.2.downloads.any (fun d => d.shortCode == r.shortCode) = false := by
          rw [← Bool.not_eq_true]
          intro hc
          exact hmem ((any_shortCode_iff p.2.downloads r.shortCode).mp hc)
        rw [hany]
        simp
    · rw [if_neg hh, getDownloadedShortCodes]
      cases hfind2 : data.find? (fun p => p.1 == h') with
      | none => simp
      | some p =>
        have hph : (p.1 == h') = true := by
          have := List.find?_some hfind2
          simpa using this
        have hpnh : (p.1 == h) = false := by
          rw [beq_eq_false_iff_ne]
          intro hc
          exact hh (by rw [← beq_iff_eq.mp hph, hc])
        simp only [Option.map_some']
        rw [updateEntry_nokey h r now p hpnh]
  · rw [if_neg hu]
    have hnone : data.find? (fun p => p.1 == h) = none := by
      rw [List.find?_eq_none]
      intro p hp
      simp only [Bool.not_eq_true]
      rcases hb : p.1 == h with _ | _
      · rfl
      · exact absurd (List.any_eq_true.mpr ⟨p, hp, hb⟩) hu
    rw [getDownloadedShortCodes, List.map_append, List.find?_append,
      find_map_keep (updateEntry h r now) (updateEntry_fst h r now)]
    by_cases hh : h' = h
    · subst hh
      rw [hnone]
      simp only [Option.map_none', Option.none_or]
      rw [getDownloadedShortCodes, hnone]
      simp [updateEntry]
    · rw [if_neg hh, getDownloadedShortCodes]
      cases hfind2 : data.find? (fun p => p.1 == h') with
      | none =>
        have hne : ((h, (⟨h, []⟩ : UserHistory)).1 == h') = false := by
          rw [beq_eq_false_iff_ne]
          intro hc
          exact hh hc.symm
        simp [Option.or, updateEntry_fst, hne]
      | some p =>
        have hph : (p.1 == h') = true := by
          have := List.find?_some hfind2
          simpa using this
        have hpnh : (p.1 == h) = false := by
          rw [beq_eq_false_iff_ne]
          intro hc
          exact hh (by rw [← beq_iff_eq.mp hph, hc])
        simp only [Option.map_some', Option.or]
        rw [updateEntry_nokey h r now p hpnh]

theorem map_nokey_id (h : String) (r : PartialRecord) (now : String) :
    ∀ l : HistoryData, (∀ p ∈ l, (p.1 == h) = false) →
      l.map (updateEntry h r now) = l := by
  intro l
  induction l with
  | nil => intro _; rfl
  | cons q qs ih =>
    intro hall
    simp only [List.map_cons]
    rw [updateEntry_nokey h r now q (hall q (by simp)),
      ih (fun p hp => hall p (List.mem_cons_of_mem q hp))]

theorem map_update_id (h : String) (r : PartialRecord) (now : String) :
    ∀ l : HistoryData, (l.map Prod.fst).Nodup →
      (∀ p, l.find? (fun p => p.1 == h) = some p → updateEntry h r now p = p) →
      l.map (updateEntry h r now) = l := by
  intro l
  induction l with
  | nil => intro _ _; rfl
  | cons q qs ih =>
    intro hkeys hfix
    simp only [List.map_cons, List.nodup_cons] at hkeys
    by_cases hq : q.1 == h
    · have hfind : (q :: qs).find? (fun p => p.1 == h) = some q := by
        rw [List.find?_cons, hq]
      simp only [List.map_cons, hfix q hfind]
      rw [map_nokey_id]
      intro p hp
      rw [beq_eq_false_iff_ne]
      intro hc
      exact hkeys.1 (List.mem_map.mpr ⟨p, hp, by
        rw [hc]
        exact (beq_iff_eq.mp hq).symm⟩)
    · have hq' : (q.1 == h) = false := by simpa using hq
      simp only [List.map_cons]
      rw [updateEntry_nokey h r now q hq', ih hkeys.2]
      intro p hp
      apply hfix
      rw [List.find?_cons, hq']
      exact hp

theorem addRecord_noop (data : HistoryData) (h : String) (r : PartialRecord)
    (now : String) (hkeys : (data.map Prod.fst).Nodup)
    (hmem : r.shortCode ∈ getDownloadedShortCodes data h) :
    addRecord data h r now = data := by
  have hu : data.any (fun p => p.1 == h) = true := by
    rw [getDownloadedShortCodes] at hmem
    cases hfind : data.find? (fun p => p.1 == h) with
    | none => rw [hfind] at hmem; simp at hmem
    | some p =>
      exact List.any_eq_true.mpr ⟨p, List.mem_of_find?_eq_some hfind, by
        have := List.find?_some hfind
        simpa using this⟩
  simp only [addRecord]
  rw [if_pos hu]
  apply map_update_id _ _ _ _ hkeys
  intro p hfind
  rw [getDownloadedShortCodes, hfind] at hmem
  have hany := (any_shortCode_iff p.2.downloads r.shortCode).mpr hmem
  rw [updateEntry, hany]
  by_cases hp : p.1 == h
  · rw [if_pos hp, if_pos rfl]
  · rw [if_neg hp]

theorem addRecord_keys (data : HistoryData) (h : String) (r : PartialRecord)
    (now : String) :
    (addRecord data h r now).map Prod.fst = data.map Prod.fst ∨
      ((addRecord data h r now).map Prod.fst = data.map Prod.fst ++ [h] ∧
        h ∉ data.map Prod.fst) := by
  have hmf : ∀ l : HistoryData,
      (l.map (updateEntry h r now)).map Prod.fst = l.map Prod.fst := by
    intro l
    rw [List.map_map]
    apply List.map_congr_left
    intro p _
    exact updateEntry_fst h r now p
  simp only [addRecord]
  by_cases hu : data.any (fun p => p.1 == h)
  · left
    rw [if_pos hu]
    exact hmf data
  · right
    rw [if_neg hu]
    constructor
    · rw [hmf (data ++ [(h, (⟨h, []⟩ : UserHistory))]), List.map_append]
      rfl
    · intro hc
      obtain ⟨p, hp, hph⟩ := List.mem_map.mp hc
      apply hu
      refine List.any_eq_true.mpr ⟨p, hp, ?_⟩
      show (p.1 == h) = true
      rw [hph]
      exact beq_self_eq_true h

theorem applyOps_inv :
    ∀ (ops : List (String × PartialRecord × String)) (data : HistoryData),
      (data.map Prod.fst).Nodup →
      (∀ h, (getDownloadedShortCodes data h).Nodup) →
      (((ops.foldl (fun d o => addRecord d o.1 o.2.1 o.2.2) data).map Prod.fst).Nodup ∧
        ∀ h, (getDownloadedShortCodes
          (ops.foldl (fun d o => addRecord d o.1 o.2.1 o.2.2) data) h).Nodup) := by
  intro ops
  induction ops with
  | nil => intro data hkeys hcodes; exact ⟨hkeys, hcodes⟩
  | cons o ops ih =>
    intro data hkeys hcodes
    rw [List.foldl_cons]
    apply ih
    · rcases addRecord_keys data o.1 o.2.1 o.2.2 with hsame | ⟨happ, hnot⟩
      · rw [hsame]; exact hkeys
      · rw [happ]
        simp only [List.nodup_append, List.nodup_cons]
        exact ⟨hkeys, by simp, by simpa [List.disjoint_singleton] using hnot⟩
    · intro h
      rw [gds_addRecord]
      by_cases hh : h = o.1
      · rw [if_pos hh]
        by_cases hmem : (o.2.1).shortCode ∈ getDownloadedShortCodes data o.1
        · rw [if_pos hmem]
          exact hcodes o.1
        · rw [if_neg hmem]
          simp only [List.nodup_append, List.nodup_cons]
          exact ⟨hcodes o.1, by simp, by simpa [List.disjoint_singleton] using hmem⟩
      · rw [if_neg hh]
        exact hcodes h

/-- C9: the per-handle download history never contains two records with
the same ShortCode (any sequence of `addRecord` calls from the empty
history yields duplicate-free per-handle shortCode lists); `addRecord`
with a ShortCode already present for the handle is a no-op on the whole
state, while a new ShortCode appends exactly one record for that
handle. -/
theorem addRecord_spec_c9 :
    (∀ (data : HistoryData) (h : String) (r : PartialRecord) (now : String),
      (data.map Prod.fst).Nodup →
      r.shortCode ∈ getDownloadedShortCodes data h →
      addRecord data h r now = data) ∧
    (∀ (data : HistoryData) (h : String) (r : PartialRecord) (now : String),
      r.shortCode ∉ getDownloadedShortCodes data h →
      getDownloadedShortCodes (addRecord data h r now) h =
        getDownloadedShortCodes data h ++ [r.shortCode]) ∧
    (∀ (ops : List (String × PartialRecord × String)) (h : String),
      (getDownloadedShortCodes (applyOps ops) h).Nodup) := by
  refine ⟨addRecord_noop, ?_, ?_⟩
  · intro data h r now hmem
    rw [gds_addRecord, if_pos rfl, if_neg hmem]
  · intro ops h
    exact (applyOps_inv ops [] (by simp)
      (fun h' => by simp [getDownloadedShortCodes])).2 h

/-- Witness for `addRecord_spec_c9`: on a one-user history holding
shortCode `c`, re-adding `c` is a no-op and adding a fresh `d` appends
exactly that code. -/
theorem addRecord_spec_c9_witness :
    addRecord [("u", ⟨"u", [⟨"c", "f", none, "t", none⟩]⟩)] "u"
        ⟨"c", "f2", none, none⟩ "t2" =
      [("u", ⟨"u", [⟨"c", "f", none, "t", none⟩]⟩)] ∧
    getDownloadedShortCodes
        (addRecord [("u", ⟨"u", [⟨"c", "f", none, "t", none⟩]⟩)] "u"
          ⟨"d", "f2", none, none⟩ "t2") "u" =
      getDownloadedShortCodes [("u", ⟨"u", [⟨"c", "f", none, "t", none⟩]⟩)] "u" ++
        ["d"] :=
  ⟨addRecord_spec_c9.1 [("u", ⟨"u", [⟨"c", "f", none, "t", none⟩]⟩)] "u"
      ⟨"c", "f2", none, none⟩ "t2" (by decide) (by decide),
    addRecord_spec_c9.2.1 [("u", ⟨"u", [⟨"c", "f", none, "t", none⟩]⟩)] "u"
      ⟨"d", "f2", none, none⟩ "t2" (by decide)⟩

-- ===========================================================================
-- Lemmas about the new-link filter (C6)
-- ===========================================================================

/-- C6: exactly the collected links whose extracted ShortCode is not in
the per-handle set of already-downloaded ShortCodes proceed; if every
collected link's ShortCode is already in the history (as after a first
run over an unchanged profile, since every downloaded record's ShortCode
is in the set afterwards), no link proceeds and zero DownloadTasks are
built. -/
theorem filterNewLinks_spec_c6 :
    (∀ (links codes : List String) (link : String),
      link ∈ filterNewLinks links codes ↔
        link ∈ links ∧ ∃ c, extractShortCode link = some c ∧ c ∉ codes) ∧
    (∀ (data : HistoryData) (h : String) (r : PartialRecord) (now : String),
      r.shortCode ∈ getDownloadedShortCodes (addRecord data h r now) h) ∧
    (∀ (links codes : List String),
      (∀ l ∈ links, ∀ c, extractShortCode l = some c → c ∈ codes) →
      filterNewLinks links codes = [] ∧
      ∀ (username : String) (resolve : String → ExtractResult),
        buildTasks username (filterNewLinks links codes) resolve = []) := by
  refine ⟨?_, ?_, ?_⟩
  · intro links codes link
    rw [filterNewLinks, List.mem_filter]
    constructor
    · rintro ⟨hmem, hp⟩
      refine ⟨hmem, ?_⟩
      cases hsc : extractShortCode link with
      | none => rw [hsc] at hp; simp at hp
      | some c =>
        rw [hsc] at hp
        simp only [Bool.not_eq_true'] at hp
        refine ⟨c, rfl, ?_⟩
        intro hc
        simp [hc] at hp
    · rintro ⟨hmem, c, hsc, hc⟩
      refine ⟨hmem, ?_⟩
      rw [hsc]
      simp [hc]
  · intro data h r now
    rw [gds_addRecord, if_pos rfl]
    by_cases hmem : r.shortCode ∈ getDownloadedShortCodes data h
    · rw [if_pos hmem]; exact hmem
    · rw [if_neg hmem]; simp
  · intro links codes hall
    have hnil : filterNewLinks links codes = [] := by
      rw [filterNewLinks, List.filter_eq_nil_iff]
      intro l hl
      cases hsc : extractShortCode l with
      | none => simp
      | some c =>
        simp [hall l hl c hsc]
    exact ⟨hnil, fun username resolve => by rw [hnil]; rfl⟩

/-- Witness for `filterNewLinks_spec_c6`: 5 collected links of which 3
ShortCodes are in history leave exactly 2, and a fully-populated
history leaves zero tasks. -/
theorem filterNewLinks_spec_c6_witness :
    ("https://www.instagram.com/reel/b2/" ∈
      filterNewLinks
        ["https://www.instagram.com/reel/a1/", "https://www.instagram.com/reel/b2/",
          "https://www.instagram.com/reel/c3/", "https://www.instagram.com/reel/d4/",
          "https://www.instagram.com/reel/e5/"] ["a1", "c3", "e5"] ↔
      ("https://www.instagram.com/reel/b2/" ∈
        ["https://www.instagram.com/reel/a1/", "https://www.instagram.com/reel/b2/",
          "https://www.instagram.com/reel/c3/", "https://www.instagram.com/reel/d4/",
          "https://www.instagram.com/reel/e5/"] ∧
        ∃ c, extractShortCode "https://www.instagram.com/reel/b2/" = some c ∧
          c ∉ ["a1", "c3", "e5"])) ∧
    filterNewLinks
        ["https://www.instagram.com/reel/a1/", "https://www.instagram.com/reel/b2/"]
        ["a1", "b2"] = [] :=
  ⟨filterNewLinks_spec_c6.1
      ["https://www.instagram.com/reel/a1/", "https://www.instagram.com/reel/b2/",
        "https://www.instagram.com/reel/c3/", "https://www.instagram.com/reel/d4/",
        "https://www.instagram.com/reel/e5/"] ["a1", "c3", "e5"]
      "https://www.instagram.com/reel/b2/",
    (filterNewLinks_spec_c6.2.2
      ["https://www.instagram.com/reel/a1/", "https://www.instagram.com/reel/b2/"]
      ["a1", "b2"] (by decide)).1⟩

-- ===========================================================================
-- Lemmas about the captured-responses map (C1)
-- ===========================================================================

theorem mapGet_mapSet_self (k : String) (v : CapturedVideo) :
    ∀ m : CapturedMap, mapGet (mapSet m k v) k = some v := by
  intro m
  induction m with
  | nil => simp [mapSet, mapGet]
  | cons p ps ih =>
    by_cases hp : p.1 == k
    · simp [mapSet, hp, mapGet]
    · have hp' : (p.1 == k) = false := by simpa using hp
      simp [mapSet, hp', mapGet, ih]

theorem mapGet_mapSet_ne (k k' : String) (v : CapturedVideo)
    (hne : (k == k') = false) :
    ∀ m : CapturedMap, mapGet (mapSet m k v) k' = mapGet m k' := by
  intro m
  induction m with
  | nil => simp [mapSet, mapGet, hne]
  | cons p ps ih =>
    by_cases hp : p.1 == k
    · have hpk : p.1 = k := beq_iff_eq.mp hp
      have hp' : (p.1 == k') = false := by rw [hpk]; exact hne
      simp [mapSet, hp, mapGet, hne, hp']
    · have hp' : (p.1 == k) = false := by simpa using hp
      by_cases hq : p.1 == k'
      · simp [mapSet, hp', mapGet, hq]
      · have hq' : (p.1 == k') = false := by simpa using hq
        simp [mapSet, hp', mapGet, hq', ih]

theorem mapSet_keys_sub (k : String) (v : CapturedVideo) :
    ∀ (m : CapturedMap) (x : String), x ∈ (mapSet m k v).map Prod.fst →
      x ∈ m.map Prod.fst ∨ x = k := by
  intro m
  induction m with
  | nil => intro x hx; simp [mapSet] at hx; right; exact hx
  | cons p ps ih =>
    intro x hx
    by_cases hp : p.1 == k
    · simp only [mapSet, hp, if_true, List.map_cons, List.mem_cons] at hx
      rcases hx with rfl | hx
      · right; rfl
      · left; simp [List.mem_cons, hx]
    · have hp' : (p.1 == k) = false := by simpa using hp
      simp only [mapSet, hp', Bool.false_eq_true, if_false, List.map_cons,
        List.mem_cons] at hx
      rcases hx with rfl | hx
      · left; simp
      · rcases ih x hx with hx' | hx'
        · left; simp [hx']
        · right; exact hx'

theorem mapSet_keys_nodup (k : String) (v : CapturedVideo) :
    ∀ m : CapturedMap, (m.map Prod.fst).Nodup → ((mapSet m k v).map Prod.fst).Nodup := by
  intro m
  induction m with
  | nil => intro _; simp [mapSet]
  | cons p ps ih =>
    intro hnd
    simp only [List.map_cons, List.nodup_cons] at hnd
    by_cases hp : p.1 == k
    · have hpk : p.1 = k := beq_iff_eq.mp hp
      simp only [mapSet, hp, if_true, List.map_cons, List.nodup_cons]
      exact ⟨by rw [← hpk]; exact hnd.1, hnd.2⟩
    · have hp' : (p.1 == k) = false := by simpa using hp
      simp only [mapSet, hp', Bool.false_eq_true, if_false, List.map_cons,
        List.nodup_cons]
      refine ⟨?_, ih hnd.2⟩
      intro hc
      rcases mapSet_keys_sub k v ps p.1 hc with hx | hx
      · exact hnd.1 hx
      · exact absurd hx (by simpa using hp)

theorem onResponse_keys_nodup (m : CapturedMap) (r : NetResponse)
    (hnd : (m.map Prod.fst).Nodup) : ((onResponse m r).map Prod.fst).Nodup := by
  rw [onResponse]
  by_cases hf : urlFilter r
  · simp only [hf, Bool.not_true, Bool.false_eq_true, if_false]
    by_cases ha : (parseEfgParam r.efg).isAudio
    · simp only [ha, if_true]; exact hnd
    · have ha' : (parseEfgParam r.efg).isAudio = false := by simpa using ha
      simp only [ha', Bool.false_eq_true, if_false]
      cases mapGet m (keyOf r) with
      | none => exact mapSet_keys_nodup (keyOf r) (entryOf r) m hnd
      | some existing =>
        show (List.map Prod.fst (if (parseEfgParam r.efg).bitrate > existing.bitrate
          then mapSet m (keyOf r) (entryOf r) else m)).Nodup
        by_cases hb : (parseEfgParam r.efg).bitrate > existing.bitrate
        · rw [if_pos hb]
          exact mapSet_keys_nodup (keyOf r) (entryOf r) m hnd
        · rw [if_neg hb]; exact hnd
  · have hf' : urlFilter r = false := by simpa using hf
    simp only [hf', Bool.not_false, if_true]
    exact hnd

theorem capturedOf_keys_nodup (rs : List NetResponse) :
    ((capturedOf rs).map Prod.fst).Nodup := by
  rw [capturedOf]
  have h : ∀ (l : List NetResponse) (m : CapturedMap), (m.map Prod.fst).Nodup →
      ((l.foldl onResponse m).map Prod.fst).Nodup := by
    intro l
    induction l with
    | nil => intro m hm; exact hm
    | cons r l ih =>
      intro m hm
      rw [List.foldl_cons]
      exact ih _ (onResponse_keys_nodup m r hm)
  exact h rs [] (by simp)

theorem bestEntry_concat (rs : List NetResponse) (r : NetResponse) (k : String) :
    bestEntry (rs ++ [r]) k =
      if admitted r && (keyOf r == k) then pickBetter (bestEntry rs k) r
      else bestEntry rs k := by
  rw [bestEntry, bestEntry, List.filter_append, List.filter_append, List.foldl_append]
  by_cases ha : admitted r
  · by_cases hk : keyOf r == k
    · simp [List.filter, ha, hk]
    · have hk' : (keyOf r == k) = false := by simpa using hk
      simp [List.filter, ha, hk']
  · have ha' : admitted r = false := by simpa using ha
    simp [List.filter, ha']

theorem capturedOf_bestEntry (k : String) :
    ∀ rs : List NetResponse, mapGet (capturedOf rs) k = bestEntry rs k := by
  intro rs
  induction rs using List.reverseRecOn with
  | nil => rfl
  | append_singleton rs r ih =>
    rw [capturedOf, List.foldl_append, List.foldl_cons, List.foldl_nil, ← capturedOf,
      bestEntry_concat]
    rw [onResponse]
    by_cases hf : urlFilter r
    · simp only [hf, Bool.not_true, Bool.false_eq_true, if_false]
      by_cases ha : (parseEfgParam r.efg).isAudio
      · have haF : admitted r = false := by simp [admitted, hf, ha]
        simp only [ha, if_true, haF, Bool.false_and, Bool.false_eq_true, if_false]
        exact ih
      · have ha' : (parseEfgParam r.efg).isAudio = false := by simpa using ha
        have haT : admitted r = true := by simp [admitted, hf, ha']
        simp only [ha', Bool.false_eq_true, if_false]
        by_cases hk : keyOf r == k
        · have hkeq : keyOf r = k := beq_iff_eq.mp hk
          simp only [haT, hk, Bool.and_self, if_true]
          rw [hkeq]
          cases hget : mapGet (capturedOf rs) k with
          | none =>
            have hbe : bestEntry rs k = none := by rw [← ih]; exact hget
            rw [hbe]
            show mapGet (mapSet (capturedOf rs) k (entryOf r)) k = some (entryOf r)
            rw [mapGet_mapSet_self]
          | some existing =>
            have hbe : bestEntry rs k = some existing := by rw [← ih]; exact hget
            rw [hbe]
            show mapGet (if (parseEfgParam r.efg).bitrate > existing.bitrate
                then mapSet (capturedOf rs) k (entryOf r) else capturedOf rs) k =
              if (entryOf r).bitrate > existing.bitrate then some (entryOf r)
              else some existing
            by_cases hb : (parseEfgParam r.efg).bitrate > existing.bitrate
            · rw [if_pos hb, mapGet_mapSet_self,
                if_pos (show (entryOf r).bitrate > existing.bitrate from hb)]
            · rw [if_neg hb, if_neg (show ¬ (entryOf r).bitrate > existing.bitrate from hb),
                ih, hbe]
        · have hk' : (keyOf r == k) = false := by simpa using hk
          simp only [haT, hk', Bool.and_false, Bool.false_eq_true, if_false]
          cases hget : mapGet (capturedOf rs) (keyOf r) with
          | none =>
            show mapGet (mapSet (capturedOf rs) (keyOf r) (entryOf r)) k = bestEntry rs k
            rw [mapGet_mapSet_ne _ _ _ hk', ih]
          | some existing =>
            show mapGet (if (parseEfgParam r.efg).bitrate > existing.bitrate
                then mapSet (capturedOf rs) (keyOf r) (entryOf r) else capturedOf rs) k =
              bestEntry rs k
            by_cases hb : (parseEfgParam r.efg).bitrate > existing.bitrate
            · rw [if_pos hb, mapGet_mapSet_ne _ _ _ hk', ih]
            · rw [if_neg hb, ih]
    · have hf' : urlFilter r = false := by simpa using hf
      have haF : admitted r = false := by simp [admitted, hf']
      simp only [hf', Bool.not_false, if_true, haF, Bool.false_and,
        Bool.false_eq_true, if_false]
      exact ih

theorem insertByBitrate_mem (v x : CapturedVideo) :
    ∀ l : List CapturedVideo, x ∈ insertByBitrate v l → x = v ∨ x ∈ l := by
  intro l
  induction l with
  | nil => intro hx; simp [insertByBitrate] at hx; left; exact hx
  | cons w ws ih =>
    intro hx
    rw [insertByBitrate] at hx
    by_cases hb : v.bitrate > w.bitrate
    · rw [if_pos hb] at hx
      rcases List.mem_cons.mp hx with rfl | hx
      · left; rfl
      · right; exact hx
    · rw [if_neg hb] at hx
      rcases List.mem_cons.mp hx with rfl | hx
      · right; simp
      · rcases ih hx with h | h
        · left; exact h
        · right; simp [h]

theorem insertByBitrate_pairwise (v : CapturedVideo) :
    ∀ l : List CapturedVideo,
      List.Pairwise (fun a b => b.bitrate ≤ a.bitrate) l →
      List.Pairwise (fun a b => b.bitrate ≤ a.bitrate) (insertByBitrate v l) := by
  intro l
  induction l with
  | nil => intro _; simp [insertByBitrate]
  | cons w ws ih =>
    intro hp
    have hp1 := List.pairwise_cons.mp hp
    rw [insertByBitrate]
    by_cases hb : v.bitrate > w.bitrate
    · rw [if_pos hb]
      refine List.pairwise_cons.mpr ⟨?_, hp⟩
      intro x hx
      rcases List.mem_cons.mp hx with rfl | hx
      · omega
      · have := hp1.1 x hx
        omega
    · rw [if_neg hb]
      refine List.pairwise_cons.mpr ⟨?_, ih hp1.2⟩
      intro x hx
      rcases insertByBitrate_mem v x ws hx with rfl | hx
      · omega
      · exact hp1.1 x hx

theorem sortByBitrateDesc_pairwise :
    ∀ l : List CapturedVideo,
      List.Pairwise (fun a b => b.bitrate ≤ a.bitrate) (sortByBitrateDesc l) := by
  intro l
  induction l with
  | nil => simp [sortByBitrateDesc]
  | cons v vs ih => exact insertByBitrate_pairwise v _ ih

/-- C1: the resolver keeps, per normalized URL, exactly one entry (the
map's keys are duplicate-free), namely the max-bitrate first-seen-on-ties
reduction `bestEntry` of the admitted responses for that key — the whole
capture is the pure fold `capturedOf` over the response list — and on
success the returned videos are sorted by descending bitrate. -/
theorem capturedOf_spec_c1 :
    (∀ (rs : List NetResponse) (k : String),
      mapGet (capturedOf rs) k = bestEntry rs k) ∧
    (∀ rs : List NetResponse, ((capturedOf rs).map Prod.fst).Nodup) ∧
    (∀ (url : String) (rs : List NetResponse) (md : Metadata),
      (extractFromPost url (PostSession.ok rs md)).success = true →
      List.Pairwise (fun a b => b.bitrate ≤ a.bitrate)
        (extractFromPost url (PostSession.ok rs md)).videos) := by
  refine ⟨fun rs k => capturedOf_bestEntry k rs, capturedOf_keys_nodup, ?_⟩
  intro url rs md hsucc
  by_cases hemp : (capturedOf rs).isEmpty
  · exfalso
    rw [extractFromPost] at hsucc
    simp [hemp] at hsucc
  · have hemp' : (capturedOf rs).isEmpty = false := by simpa using hemp
    rw [extractFromPost]
    simp only [hemp', Bool.false_eq_true, if_false]
    exact List.pairwise_map.mpr
      ((sortByBitrateDesc_pairwise _).imp (fun hab => hab))

/-- Witness for `capturedOf_spec_c1` at the spec's dedup example: two
chunked responses for the same asset with bitrates 5 and 9. -/
theorem capturedOf_spec_c1_witness :
    mapGet
        (capturedOf
          [⟨"https://a.cdninstagram.com/v.mp4", [("bytestart", "0")], some ⟨some 5, "x"⟩⟩,
            ⟨"https://a.cdninstagram.com/v.mp4", [("bytestart", "100")], some ⟨some 9, "x"⟩⟩])
        "https://a.cdninstagram.com/v.mp4" =
      bestEntry
        [⟨"https://a.cdninstagram.com/v.mp4", [("bytestart", "0")], some ⟨some 5, "x"⟩⟩,
          ⟨"https://a.cdninstagram.com/v.mp4", [("bytestart", "100")], some ⟨some 9, "x"⟩⟩]
        "https://a.cdninstagram.com/v.mp4" ∧
    List.Pairwise (fun a b => b.bitrate ≤ a.bitrate)
      (extractFromPost "https://www.instagram.com/reel/X/"
        (PostSession.ok
          [⟨"https://a.cdninstagram.com/v.mp4", [("bytestart", "0")], some ⟨some 5, "x"⟩⟩,
            ⟨"https://a.cdninstagram.com/v.mp4", [("bytestart", "100")], some ⟨some 9, "x"⟩⟩]
          ⟨none, none, none⟩)).videos :=
  ⟨capturedOf_spec_c1.1 _ _,
    capturedOf_spec_c1.2.2 "https://www.instagram.com/reel/X/" _ ⟨none, none, none⟩
      (by decide)⟩

-- ===========================================================================
-- C8: error handling of extractFromPost and collectReelLinks
-- ===========================================================================

/-- C8: neither resolve nor collect lets a session error escape: a
session exception in `extractFromPost` yields
`{success:false, videos:[], error:"Extract error: ..."}`, zero captured
assets yield `{success:false, videos:[], error:noVideoError}`, and a
session error in `collectReelLinks` yields the empty list. -/
theorem extractErrors_spec_c8 :
    (∀ url msg : String,
      extractFromPost url (PostSession.err msg) =
        ⟨false, [], some ("Extract error: " ++ msg)⟩) ∧
    (∀ (url : String) (rs : List NetResponse) (md : Metadata),
      capturedOf rs = [] →
      extractFromPost url (PostSession.ok rs md) = ⟨false, [], some noVideoError⟩) ∧
    (∀ (username : String) (maxVideos scrollTimeout : Nat) (msg : String) (fuel : Nat),
      collectReelLinks username maxVideos scrollTimeout (CollectSession.err msg) fuel =
        []) := by
  refine ⟨fun url msg => rfl, ?_, fun username mv st msg fuel => rfl⟩
  intro url rs md hnil
  rw [extractFromPost]
  simp [hnil]

/-- Witness for `extractErrors_spec_c8`: a session that captures no
responses yields the zero-capture failure result. -/
theorem extractErrors_spec_c8_witness :
    extractFromPost "https://www.instagram.com/reel/X/"
        (PostSession.ok [] ⟨none, none, none⟩) =
      ⟨false, [], some noVideoError⟩ :=
  extractErrors_spec_c8.2.1 "https://www.instagram.com/reel/X/" [] ⟨none, none, none⟩ rfl

-- ===========================================================================
-- C10: totality and ranking of undecodable quality descriptors
-- ===========================================================================

theorem onResponse_nil_undecodable (r : NetResponse) (hf : urlFilter r = true)
    (he : r.efg = none) :
    onResponse [] r = [(keyOf r, ⟨keyOf r, 0, "unknown"⟩)] := by
  rw [onResponse, he]
  simp [hf, parseEfgParam, efgDefaults, mapGet, mapSet, entryOf, he]

/-- C10: `parseEfgParam` is total with defaults
`{bitrate:0, quality:"unknown", isAudio:false}` when the `efg` parameter
is absent or undecodable; such a response is still captured (not
discarded as audio-only), and in the max-reduction it loses to any
response for the same normalized URL whose decoded bitrate is
positive. -/
theorem parseEfgParam_spec_c10 :
    parseEfgParam none = ⟨0, "unknown", false⟩ ∧
    (parseEfgParam none).isAudio = false ∧
    (∀ r : NetResponse, urlFilter r = true → r.efg = none →
      mapGet (capturedOf [r]) (keyOf r) = some ⟨keyOf r, 0, "unknown"⟩) ∧
    (∀ r r' : NetResponse, urlFilter r = true → r.efg = none →
      urlFilter r' = true → (parseEfgParam r'.efg).isAudio = false →
      (parseEfgParam r'.efg).bitrate > 0 → keyOf r' = keyOf r →
      mapGet (capturedOf [r, r']) (keyOf r) = some (entryOf r')) := by
  refine ⟨rfl, rfl, ?_, ?_⟩
  · intro r hf he
    have h1 : capturedOf [r] = onResponse [] r := rfl
    rw [h1, onResponse_nil_undecodable r hf he, mapGet]
    simp
  · intro r r' hf he hf' ha' hb hkk
    have h1 : capturedOf [r, r'] = onResponse (onResponse [] r) r' := rfl
    rw [h1, onResponse_nil_undecodable r hf he]
    rw [onResponse]
    simp only [hf', Bool.not_true, Bool.false_eq_true, if_false, ha',
      Bool.false_eq_true, if_false]
    have hget : mapGet [(keyOf r, (⟨keyOf r, 0, "unknown"⟩ : CapturedVideo))]
        (keyOf r') = some ⟨keyOf r, 0, "unknown"⟩ := by
      rw [mapGet]
      simp [hkk]
    rw [hget]
    show mapGet (if (parseEfgParam r'.efg).bitrate >
        (⟨keyOf r, 0, "unknown"⟩ : CapturedVideo).bitrate then
        mapSet [(keyOf r, ⟨keyOf r, 0, "unknown"⟩)] (keyOf r') (entryOf r')
      else [(keyOf r, ⟨keyOf r, 0, "unknown"⟩)]) (keyOf r) = some (entryOf r')
    rw [if_pos (show (parseEfgParam r'.efg).bitrate >
      (⟨keyOf r, 0, "unknown"⟩ : CapturedVideo).bitrate from hb)]
    rw [mapSet]
    simp only [hkk, beq_self_eq_true, if_true]
    rw [mapGet]
    simp [hkk]

/-- Witness for `parseEfgParam_spec_c10`: an undecodable response is
captured with bitrate 0, and a decodable bitrate-7 response for the
same asset replaces it. -/
theorem parseEfgParam_spec_c10_witness :
    mapGet
        (capturedOf [⟨"https://a.cdninstagram.com/v.mp4", [], none⟩])
        (keyOf ⟨"https://a.cdninstagram.com/v.mp4", [], none⟩) =
      some ⟨keyOf ⟨"https://a.cdninstagram.com/v.mp4", [], none⟩, 0, "unknown"⟩ ∧
    mapGet
        (capturedOf
          [⟨"https://a.cdninstagram.com/v.mp4", [], none⟩,
            ⟨"https://a.cdninstagram.com/v.mp4", [], some ⟨some 7, "x"⟩⟩])
        (keyOf ⟨"https://a.cdninstagram.com/v.mp4", [], none⟩) =
      some (entryOf ⟨"https://a.cdninstagram.com/v.mp4", [], some ⟨some 7, "x"⟩⟩) :=
  ⟨parseEfgParam_spec_c10.2.2.1 ⟨"https://a.cdninstagram.com/v.mp4", [], none⟩
      (by decide) rfl,
    parseEfgParam_spec_c10.2.2.2 ⟨"https://a.cdninstagram.com/v.mp4", [], none⟩
      ⟨"https://a.cdninstagram.com/v.mp4", [], some ⟨some 7, "x"⟩⟩
      (by decide) rfl (by decide) (by decide) (by decide) rfl⟩

-- ===========================================================================
-- C7: the collect loop
-- ===========================================================================

/-- C7: `collectReelLinks` returns at most `maxVideos` links; it stops
when the deduplicated snapshot reaches `maxVideos` (returning exactly
`maxVideos` links), when the wall clock passes `scrollTimeout`, or when
the link count is unchanged for three consecutive rounds — in the
stalled case (constant snapshot below `maxVideos`) returning exactly
the links found so far as a normal result. -/
theorem collectReelLinks_spec_c7 :
    (∀ (username : String) (maxVideos scrollTimeout : Nat) (s : CollectSession)
        (fuel : Nat),
      (collectReelLinks username maxVideos scrollTimeout s fuel).length ≤ maxVideos) ∧
    (∀ (username : String) (maxVideos scrollTimeout fuel : Nat)
        (snap : Nat → List String) (time : Nat → Nat) (L : List String),
      (∀ i, snap i = L) → (∀ i, time i < scrollTimeout) →
      (dedup L).length < maxVideos → 4 ≤ fuel →
      collectReelLinks username maxVideos scrollTimeout
        (CollectSession.ok snap time) fuel = dedup L) ∧
    (∀ (username : String) (maxVideos scrollTimeout fuel : Nat)
        (snap : Nat → List String) (time : Nat → Nat),
      scrollTimeout ≤ time 0 →
      collectReelLinks username maxVideos scrollTimeout
        (CollectSession.ok snap time) (fuel + 1) = []) ∧
    (∀ (username : String) (maxVideos scrollTimeout fuel : Nat)
        (snap : Nat → List String) (time : Nat → Nat),
      0 < maxVideos → time 0 < scrollTimeout →
      maxVideos ≤ (dedup (snap 0)).length →
      (collectReelLinks username maxVideos scrollTimeout
          (CollectSession.ok snap time) (fuel + 1)).length = maxVideos) := by
  refine ⟨?_, ?_, ?_, ?_⟩
  · intro username maxV sT s fuel
    cases s with
    | err msg => simp [collectReelLinks]
    | ok snap time =>
      rw [collectReelLinks]
      rw [List.length_take]
      omega
  · intro username maxV sT fuel snap time L hsnap htime hlen hfuel
    obtain ⟨g, rfl⟩ : ∃ g, fuel = g + 4 := ⟨fuel - 4, by omega⟩
    have hmax0 : 0 < maxV := by omega
    rw [collectReelLinks]
    by_cases hD : dedup L = []
    · have estep : ∀ f i s, s + 1 < 3 →
          collectLoop maxV sT snap time (f + 1) i [] s =
            collectLoop maxV sT snap time f (i + 1) [] (s + 1) := by
        intro f i s hs
        rw [collectLoop, if_pos ⟨by simpa using hmax0, htime i⟩, hsnap i, hD]
        rw [if_neg (by simp; omega), if_pos rfl, if_neg (by omega)]
      have efin : ∀ f i s, 3 ≤ s + 1 →
          collectLoop maxV sT snap time (f + 1) i [] s = [] := by
        intro f i s hs
        rw [collectLoop, if_pos ⟨by simpa using hmax0, htime i⟩, hsnap i, hD]
        rw [if_neg (by simp; omega), if_pos rfl, if_pos hs]
      have h4 : g + 4 = (g + 3) + 1 := by omega
      have h3 : g + 3 = (g + 2) + 1 := by omega
      have h2 : g + 2 = (g + 1) + 1 := by omega
      rw [h4, estep (g + 3) 0 0 (by omega), h3, estep (g + 2) 1 1 (by omega),
        h2, efin (g + 1) 2 2 (by omega), hD]
      simp
    · have hlen0 : (dedup L).length ≠ 0 := by
        simpa [List.length_eq_zero] using hD
      have e1 : collectLoop maxV sT snap time ((g + 3) + 1) 0 [] 0 =
          collectLoop maxV sT snap time (g + 3) 1 (dedup L) 0 := by
        rw [collectLoop, if_pos ⟨by simpa using hmax0, htime 0⟩, hsnap 0]
        rw [if_neg (by omega), if_neg (by simpa using hlen0)]
      have estep : ∀ f i s, s + 1 < 3 →
          collectLoop maxV sT snap time (f + 1) i (dedup L) s =
            collectLoop maxV sT snap time f (i + 1) (dedup L) (s + 1) := by
        intro f i s hs
        rw [collectLoop, if_pos ⟨by omega, htime i⟩, hsnap i]
        rw [if_neg (by omega), if_pos rfl, if_neg (by omega)]
      have efin : ∀ f i s, 3 ≤ s + 1 →
          collectLoop maxV sT snap time (f + 1) i (dedup L) s = dedup L := by
        intro f i s hs
        rw [collectLoop, if_pos ⟨by omega, htime i⟩, hsnap i]
        rw [if_neg (by omega), if_pos rfl, if_pos hs]
      have h4 : g + 4 = (g + 3) + 1 := by omega
      have h3 : g + 3 = (g + 2) + 1 := by omega
      have h2 : g + 2 = (g + 1) + 1 := by omega
      have h1 : g + 1 = g + 1 := rfl
      rw [h4, e1, h3, estep (g + 2) 1 0 (by omega), h2,
        estep (g + 1) 2 1 (by omega), efin g (2 + 1) (1 + 1) (by omega)]
      exact List.take_of_length_le (by omega)
  · intro username maxV sT fuel snap time htime
    rw [collectReelLinks, collectLoop,
      if_neg (fun hc => absurd hc.2 (by omega))]
    simp
  · intro username maxV sT fuel snap time hmax htime hge
    rw [collectReelLinks, collectLoop,
      if_pos ⟨by simpa using hmax, htime⟩, if_pos hge]
    rw [List.length_take]
    omega

/-- Witness for `collectReelLinks_spec_c7`: a feed stalling at 4 links
with `maxCount = 10` returns exactly those 4 links; an immediate
timeout returns the empty list; a first snapshot of 2 links with
`maxCount = 1` returns exactly 1. -/
theorem collectReelLinks_spec_c7_witness :
    collectReelLinks "u" 10 30000
        (CollectSession.ok (fun _ => ["l1", "l2", "l3", "l4"]) (fun _ => 0)) 8 =
      dedup ["l1", "l2", "l3", "l4"] ∧
    collectReelLinks "u" 10 0
        (CollectSession.ok (fun _ => ["l1"]) (fun _ => 0)) 8 = [] ∧
    (collectReelLinks "u" 1 30000
        (CollectSession.ok (fun _ => ["l1", "l2"]) (fun _ => 0)) 8).length = 1 :=
  ⟨collectReelLinks_spec_c7.2.1 "u" 10 30000 8 (fun _ => ["l1", "l2", "l3", "l4"])
      (fun _ => 0) ["l1", "l2", "l3", "l4"] (fun i => rfl)
      (fun i => by show (0 : Nat) < 30000; omega) (by decide) (by omega),
    collectReelLinks_spec_c7.2.2.1 "u" 10 0 7 (fun _ => ["l1"]) (fun _ => 0)
      (by show (0 : Nat) ≤ 0; omega),
    collectReelLinks_spec_c7.2.2.2 "u" 1 30000 7 (fun _ => ["l1", "l2"]) (fun _ => 0)
      (by omega) (by show (0 : Nat) < 30000; omega) (by decide)⟩

-- ===========================================================================
-- Lemmas about the sanitize pipeline (C4, C5)
-- ===========================================================================

theorem dropWhile_head_false (p : Char → Bool) :
    ∀ (l : List Char) (c : Char), (l.dropWhile p).head? = some c → p c = false := by
  intro l
  induction l with
  | nil => intro c hc; simp at hc
  | cons a l ih =>
    intro c hc
    rw [List.dropWhile_cons] at hc
    by_cases ha : p a
    · rw [if_pos ha] at hc
      exact ih c hc
    · rw [if_neg ha] at hc
      simp only [List.head?_cons, Option.some.injEq] at hc
      subst hc
      simpa using ha

theorem dropWhile_eq_self (p : Char → Bool) (l : List Char)
    (h : ∀ c, l.head? = some c → p c = false) : l.dropWhile p = l := by
  cases l with
  | nil => rfl
  | cons a l =>
    rw [List.dropWhile_cons, if_neg]
    simp [h a rfl]

theorem dropWhile_length_le (p : Char → Bool) :
    ∀ l : List Char, (l.dropWhile p).length ≤ l.length := by
  intro l
  induction l with
  | nil => simp
  | cons a l ih =>
    rw [List.dropWhile_cons]
    by_cases ha : p a
    · rw [if_pos ha]
      simp only [List.length_cons]
      omega
    · rw [if_neg ha]

theorem removeTagsA_nil (m : Char) (b : Bool) : removeTagsA m b [] = [] := by
  cases b <;> rfl

theorem removeTagsA_true_cons (m c : Char) (rest : List Char) :
    removeTagsA m true (c :: rest) =
      if jsSpace c then c :: removeTagsA m false rest
      else removeTagsA m true rest := rfl

theorem removeTagsA_one (m c : Char) : removeTagsA m false [c] = [c] := rfl

theorem removeTagsA_cons2 (m c d : Char) (ds : List Char) :
    removeTagsA m false (c :: d :: ds) =
      if c == m then
        (if jsSpace d then c :: removeTagsA m false (d :: ds)
          else removeTagsA m true ds)
      else c :: removeTagsA m false (d :: ds) := rfl

theorem collapseSepA_cons (b : Bool) (c : Char) (rest : List Char) :
    collapseSepA b (c :: rest) =
      if sepSC c then
        (if b then collapseSepA true rest else '_' :: collapseSepA true rest)
      else c :: collapseSepA false rest := rfl

theorem space_bne (m : Char) (hm : jsSpace m = false) (c : Char)
    (hc : jsSpace c = true) : (c == m) = false := by
  rw [beq_eq_false_iff_ne]
  intro hcm
  rw [hcm, hm] at hc
  exact Bool.false_ne_true hc

theorem removeTagsA_id (m : Char) :
    ∀ l : List Char, (∀ c ∈ l, (c == m) = false) → removeTagsA m false l = l := by
  intro l
  induction l with
  | nil => intro _; rfl
  | cons c rest ih =>
    intro hall
    cases rest with
    | nil => rw [removeTagsA_one]
    | cons d ds =>
      rw [removeTagsA_cons2, if_neg (by simp [hall c (by simp)])]
      rw [ih (fun x hx => hall x (List.mem_cons_of_mem c hx))]

theorem replaceUnsafe_id (l : List Char)
    (hall : ∀ c ∈ l, reservedChar c = false) : replaceUnsafe l = l := by
  rw [replaceUnsafe]
  conv_rhs => rw [← List.map_id l]
  apply List.map_congr_left
  intro c hc
  simp [hall c hc]

theorem jsSpace_toNat (c : Char) (hc : jsSpace c = true) :
    c.toNat = 32 ∨ c.toNat = 9 ∨ c.toNat = 10 ∨ c.toNat = 13 ∨
    c.toNat = 0x0b ∨ c.toNat = 0x0c ∨ c.toNat = 0xa0 ∨ c.toNat = 0x1680 ∨
    (0x2000 ≤ c.toNat ∧ c.toNat ≤ 0x200a) ∨ c.toNat = 0x2028 ∨
    c.toNat = 0x2029 ∨ c.toNat = 0x202f ∨ c.toNat = 0x205f ∨
    c.toNat = 0x3000 ∨ c.toNat = 0xfeff := by
  simp only [jsSpace, Bool.or_eq_true, beq_iff_eq, Bool.and_eq_true,
    decide_eq_true_eq] at hc
  omega

theorem reservedChar_toNat (c : Char) (hc : reservedChar c = true) :
    c.toNat = 47 ∨ c.toNat = 92 ∨ c.toNat = 58 ∨ c.toNat = 42 ∨
    c.toNat = 63 ∨ c.toNat = 34 ∨ c.toNat = 60 ∨ c.toNat = 62 ∨
    c.toNat = 124 := by
  simp only [reservedChar, Bool.or_eq_true, beq_iff_eq] at hc
  omega

theorem jsSpace_not_reserved (c : Char) (hc : jsSpace c = true) :
    reservedChar c = false := by
  cases hr : reservedChar c with
  | false => rfl
  | true =>
    exfalso
    have h1 := jsSpace_toNat c hc
    have h2 := reservedChar_toNat c hr
    omega

theorem collapseSepA_true_allSep :
    ∀ l : List Char, (∀ c ∈ l, sepSC c = true) → collapseSepA true l = [] := by
  intro l
  induction l with
  | nil => intro _; rfl
  | cons c rest ih =>
    intro hall
    rw [collapseSepA_cons, if_pos (by simpa using hall c (by simp)), if_pos rfl]
    exact ih (fun x hx => hall x (List.mem_cons_of_mem c hx))

theorem collapseSep_allSep (l : List Char) (hne : l ≠ [])
    (hall : ∀ c ∈ l, sepSC c = true) : collapseSep l = ['_'] := by
  cases l with
  | nil => exact absurd rfl hne
  | cons c rest =>
    rw [collapseSep, collapseSepA_cons, if_pos (by simpa using hall c (by simp))]
    rw [if_neg (by simp)]
    rw [collapseSepA_true_allSep rest (fun x hx => hall x (List.mem_cons_of_mem c hx))]

theorem allSpace_cleanName (cap : List Char)
    (hall : ∀ c ∈ cap, jsSpace c = true) : cleanName cap = [] := by
  rw [cleanName]
  have h1 : ∀ c ∈ cap.filter (fun c => !isEmojiChar c), jsSpace c = true :=
    fun c hc => hall c (List.mem_of_mem_filter hc)
  simp only [removeTags]
  rw [removeTagsA_id '#' _
    (fun c hc => space_bne '#' (by decide) c (h1 c hc))]
  rw [removeTagsA_id '@' _
    (fun c hc => space_bne '@' (by decide) c (h1 c hc))]
  rw [replaceUnsafe_id _ (fun c hc => jsSpace_not_reserved c (h1 c hc))]
  by_cases hnil : cap.filter (fun c => !isEmojiChar c) = []
  · rw [hnil]
    rfl
  · rw [collapseSep_allSep _ hnil (fun c hc => by simp [sepSC, h1 c hc])]
    rfl

theorem jsTrim_nil_allSpace :
    ∀ cap : List Char, jsTrim cap = [] → ∀ c ∈ cap, jsSpace c = true := by
  intro cap htrim c hc
  rw [jsTrim] at htrim
  have h2 : (cap.dropWhile jsSpace).reverse.dropWhile jsSpace = [] := by
    have := congrArg List.reverse htrim
    simpa using this
  have h3 : ∀ x ∈ (cap.dropWhile jsSpace).reverse, jsSpace x = true := by
    intro x hx
    have := List.dropWhile_eq_nil_iff.mp h2 x hx
    simpa using this
  have h4 : ∀ x ∈ cap.dropWhile jsSpace, jsSpace x = true :=
    fun x hx => h3 x (List.mem_reverse.mpr hx)
  have h5 : ∀ x ∈ cap.takeWhile jsSpace, jsSpace x = true :=
    fun x hx => List.mem_takeWhile_imp hx
  have hsplit : cap = cap.takeWhile jsSpace ++ cap.dropWhile jsSpace :=
    (List.takeWhile_append_dropWhile (p := jsSpace) (l := cap)).symm
  rw [hsplit] at hc
  rcases List.mem_append.mp hc with hx | hx
  · exact h5 c hx
  · exact h4 c hx

/-- C5: whenever the caption is non-empty after cleaning, the result is
the cleaned-and-truncated stem followed by `_shortCode`, so it ends
with that suffix and its length is bounded by the maximum stem length
(80) plus the length of the underscore-and-code suffix. -/
theorem sanitizeFilename_spec_c5 (cap code : List Char)
    (h : cleanName cap ≠ []) :
    ('_' :: code) <:+ sanitizeFilenameL (some cap) code ∧
    (sanitizeFilenameL (some cap) code).length ≤
      maxFilenameLength + ('_' :: code).length := by
  have hjt : ¬ (jsTrim cap).length = 0 := by
    intro hc
    exact h (allSpace_cleanName cap
      (jsTrim_nil_allSpace cap (List.length_eq_zero.mp hc)))
  have hn0 : ¬ (cleanName cap).length = 0 := by
    intro hc
    exact h (List.length_eq_zero.mp hc)
  rw [sanitizeFilenameL]
  simp only [if_neg hjt, if_neg hn0]
  constructor
  · exact List.suffix_append _ _
  · rw [List.length_append]
    have hname : (if (cleanName cap).length > maxFilenameLength then
        dropTrailingUnderscores ((cleanName cap).take maxFilenameLength)
      else cleanName cap).length ≤ maxFilenameLength := by
      by_cases hgt : (cleanName cap).length > maxFilenameLength
      · rw [if_pos hgt, dropTrailingUnderscores, List.length_reverse]
        calc (((cleanName cap).take maxFilenameLength).reverse.dropWhile
                (fun c => c == '_')).length
            ≤ ((cleanName cap).take maxFilenameLength).reverse.length :=
              dropWhile_length_le _ _
          _ ≤ maxFilenameLength := by
              rw [List.length_reverse, List.length_take]
              omega
      · rw [if_neg hgt]
        omega
    simp only [List.length_cons]
    omega

/-- Witness for `sanitizeFilename_spec_c5` at a concrete caption. -/
theorem sanitizeFilename_spec_c5_witness :
    ('_' :: ("AbC12".toList)) <:+ sanitizeFilenameL (some ("hi there".toList)) ("AbC12".toList) ∧
    (sanitizeFilenameL (some ("hi there".toList)) ("AbC12".toList)).length ≤
      maxFilenameLength + ('_' :: ("AbC12".toList)).length :=
  sanitizeFilename_spec_c5 ("hi there".toList) ("AbC12".toList) (by decide)

theorem scWordChar_toNat (c : Char) (h : scWordChar c = true) :
    (48 ≤ c.toNat ∧ c.toNat ≤ 57) ∨ (65 ≤ c.toNat ∧ c.toNat ≤ 90) ∨
    (97 ≤ c.toNat ∧ c.toNat ≤ 122) ∨ c.toNat = 95 ∨ c.toNat = 45 := by
  unfold scWordChar Char.isAlpha Char.isUpper Char.isLower Char.isDigit at h
  simp only [Bool.or_eq_true, Bool.and_eq_true, decide_eq_true_eq, beq_iff_eq,
    ge_iff_le] at h
  rcases h with (((⟨h1, h2⟩ | ⟨h1, h2⟩) | ⟨h1, h2⟩) | rfl) | rfl
  · right; left; exact ⟨h1, h2⟩
  · right; right; left; exact ⟨h1, h2⟩
  · left; exact ⟨h1, h2⟩
  · right; right; right; left; rfl
  · right; right; right; right; rfl

theorem scWordChar_not_reserved (c : Char) (h : scWordChar c = true) :
    reservedChar c = false := by
  cases hr : reservedChar c with
  | false => rfl
  | true =>
    exfalso
    have h1 := scWordChar_toNat c h
    have h2 := reservedChar_toNat c hr
    omega

theorem scWordChar_not_space (c : Char) (h : scWordChar c = true) :
    jsSpace c = false := by
  cases hs : jsSpace c with
  | false => rfl
  | true =>
    exfalso
    have h1 := scWordChar_toNat c h
    have h2 := jsSpace_toNat c hs
    omega

theorem scWordChar_not_marker (c : Char) (h : scWordChar c = true) :
    c ≠ '#' ∧ c ≠ '@' := by
  have h1 := scWordChar_toNat c h
  constructor
  · intro hc
    rw [hc] at h1
    have : ('#' : Char).toNat = 35 := rfl
    omega
  · intro hc
    rw [hc] at h1
    have : ('@' : Char).toNat = 64 := rfl
    omega

theorem scWordChar_sepTrim (c : Char) (h : scWordChar c = true) (hne : c ≠ '_') :
    sepTrim c = false := by
  rw [sepTrim, scWordChar_not_space c h]
  have hdot : (c == '.') = false := by
    rw [beq_eq_false_iff_ne]
    intro hc
    have h1 := scWordChar_toNat c h
    rw [hc] at h1
    have : ('.' : Char).toNat = 46 := rfl
    omega
  have hund : (c == '_') = false := by
    rw [beq_eq_false_iff_ne]
    exact hne
  rw [hdot, hund]
  rfl

theorem head?_append_left (l t : List Char) (h : l ≠ []) :
    (l ++ t).head? = l.head? := by
  cases l with
  | nil => exact absurd rfl h
  | cons a l => rfl

theorem removeTagsA_head_space (m : Char) (hm : jsSpace m = false)
    (d : Char) (hd : jsSpace d = true) (ds : List Char) :
    (removeTagsA m false (d :: ds)).head? = some d := by
  cases ds with
  | nil => rfl
  | cons e es =>
    rw [removeTagsA_cons2, if_neg (by simp [space_bne m hm d hd])]
    rfl

theorem collapseSepA_head_sep (b₀ : Char) (hb : sepSC b₀ = true)
    (rest : List Char) :
    (collapseSepA false (b₀ :: rest)).head? = some '_' := by
  rw [collapseSepA_cons, if_pos hb, if_neg (by simp)]
  rfl

theorem chain_append_left {R : Char → Char → Prop} {l t : List Char}
    (h : List.Chain' R (l ++ t)) : List.Chain' R l :=
  (List.chain'_append.mp h).1

theorem chain_append_right {R : Char → Char → Prop} {l t : List Char}
    (h : List.Chain' R (l ++ t)) : List.Chain' R t :=
  (List.chain'_append.mp h).2.1

theorem removeTagsA_chain_self (m : Char) (hm : jsSpace m = false) :
    ∀ (n : Nat) (l : List Char), l.length ≤ n → ∀ b : Bool,
      List.Chain' (fun a b' => a = m → jsSpace b' = true) (removeTagsA m b l) := by
  intro n
  induction n with
  | zero =>
    intro l hl b
    have : l = [] := List.length_eq_zero.mp (Nat.le_antisymm hl (Nat.zero_le _))
    subst this
    rw [removeTagsA_nil]
    exact List.chain'_nil
  | succ n ih =>
    intro l hl b
    cases l with
    | nil => rw [removeTagsA_nil]; exact List.chain'_nil
    | cons c rest =>
      simp only [List.length_cons] at hl
      cases b with
      | true =>
        rw [removeTagsA_true_cons]
        by_cases hc : jsSpace c
        · rw [if_pos hc]
          refine List.chain'_cons'.mpr ⟨?_, ih rest (by omega) false⟩
          intro y _ hcm
          rw [hcm, hm] at hc
          exact absurd hc (by simp)
        · rw [if_neg hc]
          exact ih rest (by omega) true
      | false =>
        cases rest with
        | nil => rw [removeTagsA_one]; exact List.chain'_singleton c
        | cons d ds =>
          simp only [List.length_cons] at hl
          rw [removeTagsA_cons2]
          by_cases hcm : c == m
          · rw [if_pos hcm]
            by_cases hd : jsSpace d
            · rw [if_pos hd]
              refine List.chain'_cons'.mpr ⟨?_, ih (d :: ds) (by simp; omega) false⟩
              intro y hy _
              rw [removeTagsA_head_space m hm d hd ds] at hy
              simp only [Option.mem_def, Option.some.injEq] at hy
              subst hy
              exact hd
            · rw [if_neg hd]
              exact ih ds (by omega) true
          · rw [if_neg hcm]
            refine List.chain'_cons'.mpr ⟨?_, ih (d :: ds) (by simp; omega) false⟩
            intro y _ hceq
            exact absurd (show (c == m) = true by
              rw [hceq]; exact beq_self_eq_true m) hcm

theorem removeTagsA_chain_preserve (m m' : Char) (hm : jsSpace m = false)
    (hm' : jsSpace m' = false) (hnem : m' ≠ m) :
    ∀ (n : Nat) (l : List Char), l.length ≤ n →
      List.Chain' (fun a b' => a = m' → jsSpace b' = true) l → ∀ b : Bool,
      List.Chain' (fun a b' => a = m' → jsSpace b' = true) (removeTagsA m b l) := by
  intro n
  induction n with
  | zero =>
    intro l hl _ b
    have : l = [] := List.length_eq_zero.mp (Nat.le_antisymm hl (Nat.zero_le _))
    subst this
    rw [removeTagsA_nil]
    exact List.chain'_nil
  | succ n ih =>
    intro l hl hch b
    cases l with
    | nil => rw [removeTagsA_nil]; exact List.chain'_nil
    | cons c rest =>
      simp only [List.length_cons] at hl
      cases b with
      | true =>
        rw [removeTagsA_true_cons]
        by_cases hc : jsSpace c
        · rw [if_pos hc]
          refine List.chain'_cons'.mpr ⟨?_, ih rest (by omega) hch.tail false⟩
          intro y _ hcm
          rw [hcm, hm'] at hc
          exact absurd hc (by simp)
        · rw [if_neg hc]
          exact ih rest (by omega) hch.tail true
      | false =>
        cases rest with
        | nil => rw [removeTagsA_one]; exact List.chain'_singleton c
        | cons d ds =>
          simp only [List.length_cons] at hl
          rw [removeTagsA_cons2]
          by_cases hcm : c == m
          · rw [if_pos hcm]
            by_cases hd : jsSpace d
            · rw [if_pos hd]
              refine List.chain'_cons'.mpr
                ⟨?_, ih (d :: ds) (by simp; omega) hch.tail false⟩
              intro y hy _
              rw [removeTagsA_head_space m hm d hd ds] at hy
              simp only [Option.mem_def, Option.some.injEq] at hy
              subst hy
              exact hd
            · rw [if_neg hd]
              exact ih ds (by omega) hch.tail.tail true
          · rw [if_neg hcm]
            refine List.chain'_cons'.mpr
              ⟨?_, ih (d :: ds) (by simp; omega) hch.tail false⟩
            intro y hy hceq
            have hd : jsSpace d = true := hch.rel_head hceq
            rw [removeTagsA_head_space m hm d hd ds] at hy
            simp only [Option.mem_def, Option.some.injEq] at hy
            subst hy
            exact hd

theorem collapseSepA_chain (m' : Char) (hm'u : m' ≠ '_') :
    ∀ l : List Char,
      List.Chain' (fun a b' => a = m' → jsSpace b' = true) l → ∀ b : Bool,
      List.Chain' (fun a b' => a = m' → b' = '_') (collapseSepA b l) := by
  intro l
  induction l with
  | nil =>
    intro _ b
    cases b <;> exact List.chain'_nil
  | cons c rest ih =>
    intro hch b
    rw [collapseSepA_cons]
    by_cases hc : sepSC c
    · rw [if_pos hc]
      cases b with
      | true =>
        rw [if_pos rfl]
        exact ih hch.tail true
      | false =>
        rw [if_neg (by simp)]
        refine List.chain'_cons'.mpr ⟨?_, ih hch.tail true⟩
        intro y _ hceq
        exact absurd hceq.symm hm'u
    · rw [if_neg hc]
      refine List.chain'_cons'.mpr ⟨?_, ih hch.tail false⟩
      intro y hy hceq
      cases rest with
      | nil =>
        rw [show collapseSepA false [] = [] from rfl] at hy
        simp at hy
      | cons b₀ rest' =>
        have hb₀ : jsSpace b₀ = true := hch.rel_head hceq
        rw [collapseSepA_head_sep b₀ (by simp [sepSC, hb₀]) rest'] at hy
        simp only [Option.mem_def, Option.some.injEq] at hy
        subst hy
        rfl

theorem replaceUnsafe_chain (m' : Char) (hm'u : m' ≠ '_') (l : List Char)
    (h : List.Chain' (fun a b' => a = m' → jsSpace b' = true) l) :
    List.Chain' (fun a b' => a = m' → jsSpace b' = true) (replaceUnsafe l) := by
  rw [replaceUnsafe, List.chain'_map]
  refine h.imp ?_
  intro a b hab hfa
  by_cases hra : reservedChar a
  · rw [if_pos hra] at hfa
    exact absurd hfa.symm hm'u
  · rw [if_neg hra] at hfa
    have hb := hab hfa
    rw [if_neg (by simp [jsSpace_not_reserved b hb])]
    exact hb

theorem trimSep_decomp (l : List Char) :
    ∃ t1 t2, l = t1 ++ (trimSep l ++ t2) := by
  refine ⟨l.takeWhile sepTrim,
    ((l.dropWhile sepTrim).reverse.takeWhile sepTrim).reverse, ?_⟩
  conv_lhs => rw [← List.takeWhile_append_dropWhile (p := sepTrim) (l := l)]
  congr 1
  rw [trimSep]
  conv_lhs => rw [← List.reverse_reverse (l.dropWhile sepTrim),
    ← List.takeWhile_append_dropWhile (p := sepTrim)
      (l := (l.dropWhile sepTrim).reverse)]
  rw [List.reverse_append]

theorem dropTrailing_decomp (l : List Char) :
    ∃ t, l = dropTrailingUnderscores l ++ t ∧ ∀ x ∈ t, x = '_' := by
  refine ⟨(l.reverse.takeWhile (fun c => c == '_')).reverse, ?_, ?_⟩
  · rw [dropTrailingUnderscores]
    conv_lhs => rw [← List.reverse_reverse l,
      ← List.takeWhile_append_dropWhile (p := fun c => c == '_') (l := l.reverse)]
    rw [List.reverse_append]
  · intro x hx
    rw [List.mem_reverse] at hx
    have := List.mem_takeWhile_imp hx
    simpa using this

theorem trimSep_head (l : List Char) (c : Char)
    (hc : (trimSep l).head? = some c) : sepTrim c = false := by
  have hne : trimSep l ≠ [] := by
    intro hnil
    rw [hnil] at hc
    simp at hc
  have hd1 : l.dropWhile sepTrim =
      trimSep l ++ ((l.dropWhile sepTrim).reverse.takeWhile sepTrim).reverse := by
    rw [trimSep]
    conv_lhs => rw [← List.reverse_reverse (l.dropWhile sepTrim),
      ← List.takeWhile_append_dropWhile (p := sepTrim)
        (l := (l.dropWhile sepTrim).reverse),
      List.reverse_append]
  apply dropWhile_head_false sepTrim l c
  rw [hd1, head?_append_left _ _ hne, hc]

theorem trimSep_last (l : List Char) (c : Char)
    (hc : (trimSep l).getLast? = some c) : sepTrim c = false := by
  apply dropWhile_head_false sepTrim (l.dropWhile sepTrim).reverse c
  rw [show (l.dropWhile sepTrim).reverse.dropWhile sepTrim =
    (trimSep l).reverse from by rw [trimSep, List.reverse_reverse]]
  rw [List.head?_reverse]
  exact hc

theorem jsTrim_eq_self (l : List Char)
    (hh : ∀ c, l.head? = some c → jsSpace c = false)
    (hl : ∀ c, l.getLast? = some c → jsSpace c = false) : jsTrim l = l := by
  rw [jsTrim, dropWhile_eq_self jsSpace l hh]
  rw [dropWhile_eq_self jsSpace l.reverse
    (fun c hc => hl c (by rw [← List.head?_reverse]; exact hc))]
  exact List.reverse_reverse l

theorem sepTrim_false_space (c : Char) (h : sepTrim c = false) :
    jsSpace c = false := by
  rw [sepTrim] at h
  rcases Bool.or_eq_false_iff.mp h with ⟨h1, _⟩
  exact Bool.or_eq_false_iff.mp h1 |>.1

theorem cleanName_eq_trimSep (cap : List Char) :
    cleanName cap =
      trimSep (collapseSep (replaceUnsafe (removeTags '@' (removeTags '#'
        (cap.filter (fun c => !isEmojiChar c)))))) := by
  rw [cleanName]
  apply jsTrim_eq_self
  · intro c hc
    exact sepTrim_false_space c (trimSep_head _ c hc)
  · intro c hc
    exact sepTrim_false_space c (trimSep_last _ c hc)

theorem take_head? (l : List Char) (n : Nat) (hn : 0 < n) :
    (l.take n).head? = l.head? := by
  cases l with
  | nil => simp
  | cons a l =>
    cases n with
    | zero => omega
    | succ n => rfl

theorem dropTrailing_head (l : List Char) (c : Char)
    (hc : l.head? = some c) (hne : c ≠ '_') :
    (dropTrailingUnderscores l).head? = some c := by
  obtain ⟨t, hdec, hall⟩ := dropTrailing_decomp l
  by_cases hd : dropTrailingUnderscores l = []
  · exfalso
    rw [hd, List.nil_append] at hdec
    cases hl : l with
    | nil => rw [hl] at hc; simp at hc
    | cons x xs =>
      rw [hl] at hc
      simp only [List.head?_cons, Option.some.injEq] at hc
      apply hne
      rw [← hc]
      apply hall
      rw [← hdec, hl]
      simp
  · rw [hdec, head?_append_left _ _ hd] at hc
    exact hc

theorem collapseSepA_chars (b : Bool) :
    ∀ l : List Char, ∀ c ∈ collapseSepA b l, c = '_' ∨ c ∈ l := by
  intro l
  induction l generalizing b with
  | nil =>
    intro c hc
    rw [show collapseSepA b [] = [] from by cases b <;> rfl] at hc
    simp at hc
  | cons a rest ih =>
    intro c hc
    rw [collapseSepA_cons] at hc
    by_cases ha : sepSC a
    · rw [if_pos ha] at hc
      cases b with
      | true =>
        rw [if_pos rfl] at hc
        rcases ih true c hc with h | h
        · left; exact h
        · right; exact List.mem_cons_of_mem a h
      | false =>
        rw [if_neg (by simp)] at hc
        rcases List.mem_cons.mp hc with rfl | hc
        · left; rfl
        · rcases ih true c hc with h | h
          · left; exact h
          · right; exact List.mem_cons_of_mem a h
    · rw [if_neg ha] at hc
      rcases List.mem_cons.mp hc with rfl | hc
      · right; simp
      · rcases ih false c hc with h | h
        · left; exact h
        · right; exact List.mem_cons_of_mem a h

theorem replaceUnsafe_not_reserved (l : List Char) :
    ∀ c ∈ replaceUnsafe l, reservedChar c = false := by
  intro c hc
  rw [replaceUnsafe] at hc
  obtain ⟨x, _, hx⟩ := List.mem_map.mp hc
  by_cases hrx : reservedChar x
  · rw [if_pos hrx] at hx
    rw [← hx]
    rfl
  · rw [if_neg hrx] at hx
    rw [← hx]
    simpa using hrx

theorem chain'_trimSep {R : Char → Char → Prop} (l : List Char)
    (h : List.Chain' R l) : List.Chain' R (trimSep l) := by
  obtain ⟨t1, t2, hdec⟩ := trimSep_decomp l
  exact chain_append_left (chain_append_right (hdec ▸ h))

theorem chain'_take {R : Char → Char → Prop} (l : List Char) (n : Nat)
    (h : List.Chain' R l) : List.Chain' R (l.take n) :=
  chain_append_left ((List.take_append_drop n l).symm ▸ h)

theorem chain'_dropTrailing {R : Char → Char → Prop} (l : List Char)
    (h : List.Chain' R l) : List.Chain' R (dropTrailingUnderscores l) := by
  obtain ⟨t, hdec, _⟩ := dropTrailing_decomp l
  exact chain_append_left (hdec ▸ h)

theorem mem_trimSep (l : List Char) (c : Char) (hc : c ∈ trimSep l) : c ∈ l := by
  obtain ⟨t1, t2, hdec⟩ := trimSep_decomp l
  rw [hdec]
  exact List.mem_append.mpr (Or.inr (List.mem_append.mpr (Or.inl hc)))

theorem mem_dropTrailing (l : List Char) (c : Char)
    (hc : c ∈ dropTrailingUnderscores l) : c ∈ l := by
  obtain ⟨t, hdec, _⟩ := dropTrailing_decomp l
  rw [hdec]
  exact List.mem_append.mpr (Or.inl hc)

theorem getLast?_append_right (l t : List Char) (h : t ≠ []) :
    (l ++ t).getLast? = t.getLast? := by
  rw [← List.head?_reverse, List.reverse_append,
    head?_append_left _ _ (by simpa using h), List.head?_reverse]

theorem chain_merge (l : List Char)
    (h1 : List.Chain' (fun a b => a = '#' → b = '_') l)
    (h2 : List.Chain' (fun a b => a = '@' → b = '_') l) :
    List.Chain' (fun a b => (a = '#' ∨ a = '@') → b = '_') l := by
  rw [List.chain'_iff_get] at *
  intro i hi hm
  rcases hm with hm | hm
  · exact h1 i hi hm
  · exact h2 i hi hm

theorem chain_no_marker (l : List Char)
    (h : ∀ a ∈ l, a ≠ '#' ∧ a ≠ '@') :
    List.Chain' (fun a b => (a = '#' ∨ a = '@') → b = '_') l := by
  rw [List.chain'_iff_get]
  intro i hi hm
  exfalso
  have hlt : i < l.length := by omega
  have hmem := h (l.get ⟨i, hlt⟩) (List.mem_iff_get.mpr ⟨⟨i, hlt⟩, rfl⟩)
  rcases hm with hm | hm
  · exact hmem.1 hm
  · exact hmem.2 hm

theorem cleanName_chain (m : Char) (hm : m = '#' ∨ m = '@') (cap : List Char) :
    List.Chain' (fun a b => a = m → b = '_') (cleanName cap) := by
  have hmu : m ≠ '_' := by rcases hm with h | h <;> rw [h] <;> decide
  have hbase : List.Chain' (fun a b => a = m → jsSpace b = true)
      (removeTags '@' (removeTags '#' (cap.filter (fun c => !isEmojiChar c)))) := by
    rcases hm with h | h
    · subst h
      rw [removeTags, removeTags]
      exact removeTagsA_chain_preserve '@' '#' (by decide) (by decide) (by decide)
        _ _ le_rfl (removeTagsA_chain_self '#' (by decide) _ _ le_rfl false) false
    · subst h
      rw [removeTags]
      exact removeTagsA_chain_self '@' (by decide) _ _ le_rfl false
  have hrep := replaceUnsafe_chain m hmu _ hbase
  have hcol := collapseSepA_chain m hmu _ hrep false
  rw [cleanName_eq_trimSep, collapseSep]
  exact chain'_trimSep _ hcol

theorem cleanName_not_reserved (cap : List Char) :
    ∀ c ∈ cleanName cap, reservedChar c = false := by
  intro c hc
  rw [cleanName_eq_trimSep] at hc
  have hc5 := mem_trimSep _ c hc
  rw [collapseSep] at hc5
  rcases collapseSepA_chars false _ c hc5 with h | h
  · rw [h]
    decide
  · exact replaceUnsafe_not_reserved _ c h

theorem cleanName_head (cap : List Char) (c : Char)
    (hc : (cleanName cap).head? = some c) : sepTrim c = false := by
  rw [cleanName_eq_trimSep] at hc
  exact trimSep_head _ c hc

set_option maxHeartbeats 1600000 in
/-- **C4 (amended).**  As stated the claim is false: when the caption is
absent the function returns the shortCode verbatim, so an arbitrary
shortCode puts reserved characters or edge separators straight into the
result (see the counterexample).  Amended to shortCodes made of the word
characters `[A-Za-z0-9_-]` — exactly what `extractShortCode` can produce —
that do not start or end with an underscore: then the result contains no
filesystem-reserved character `/ \ : * ? " < > |`, has no leading or
trailing separator (underscore, dot, whitespace), every surviving `#` or
`@` is immediately followed by an underscore (so no intact `#tag` or
`@mention` word of the caption survives), and if the caption is absent or
whitespace-only the result is exactly the shortCode. -/
theorem sanitizeFilename_spec_c4 (caption : Option (List Char)) (code : List Char)
    (hne : code ≠ []) (hchars : ∀ c ∈ code, scWordChar c = true)
    (hhead : code.head? ≠ some '_') (hlast : code.getLast? ≠ some '_') :
    (∀ c ∈ sanitizeFilenameL caption code, reservedChar c = false) ∧
    (∀ c, (sanitizeFilenameL caption code).head? = some c → sepTrim c = false) ∧
    (∀ c, (sanitizeFilenameL caption code).getLast? = some c → sepTrim c = false) ∧
    List.Chain' (fun a b => (a = '#' ∨ a = '@') → b = '_')
      (sanitizeFilenameL caption code) ∧
    (caption = none → sanitizeFilenameL caption code = code) ∧
    (∀ cap, caption = some cap → (∀ c ∈ cap, jsSpace c = true) →
      sanitizeFilenameL caption code = code) := by
  have hres : ∀ c ∈ code, reservedChar c = false :=
    fun c hc => scWordChar_not_reserved c (hchars c hc)
  have hhd : ∀ c, code.head? = some c → sepTrim c = false := by
    intro c hc
    refine scWordChar_sepTrim c (hchars c (List.mem_of_mem_head? hc)) ?_
    intro hcu
    rw [hcu] at hc
    exact hhead hc
  have hlst : ∀ c, code.getLast? = some c → sepTrim c = false := by
    intro c hc
    have hmem : c ∈ code := by
      rw [← List.head?_reverse] at hc
      exact List.mem_reverse.mp (List.mem_of_mem_head? hc)
    refine scWordChar_sepTrim c (hchars c hmem) ?_
    intro hcu
    rw [hcu] at hc
    exact hlast hc
  have hch : List.Chain' (fun a b => (a = '#' ∨ a = '@') → b = '_') code :=
    chain_no_marker code (fun a ha => scWordChar_not_marker a (hchars a ha))
  cases caption with
  | none =>
    exact ⟨hres, hhd, hlst, hch, fun _ => rfl, fun cap h => Option.noConfusion h⟩
  | some cap =>
    by_cases hjt : (jsTrim cap).length = 0
    · have heq : sanitizeFilenameL (some cap) code = code := by
        simp only [sanitizeFilenameL]
        rw [if_pos hjt]
      rw [heq]
      exact ⟨hres, hhd, hlst, hch, fun _ => rfl, fun _ _ _ => rfl⟩
    · by_cases hn0 : (cleanName cap).length = 0
      · have heq : sanitizeFilenameL (some cap) code = code := by
          simp only [sanitizeFilenameL]
          rw [if_neg hjt, if_pos hn0]
        rw [heq]
        exact ⟨hres, hhd, hlst, hch, fun _ => rfl, fun _ _ _ => rfl⟩
      · have hn0' : cleanName cap ≠ [] := by
          intro h
          exact hn0 (by rw [h]; rfl)
        obtain ⟨c0, hc0⟩ : ∃ c0, (cleanName cap).head? = some c0 := by
          cases hcl : cleanName cap with
          | nil => exact absurd hcl hn0'
          | cons a l => exact ⟨a, rfl⟩
        have hc0s : sepTrim c0 = false := cleanName_head cap c0 hc0
        have hc0u : c0 ≠ '_' := by
          intro h
          rw [h] at hc0s
          exact absurd hc0s (by decide)
        have hname : ∀ P : List Char → Prop,
            P (dropTrailingUnderscores ((cleanName cap).take maxFilenameLength)) →
            P (cleanName cap) →
            P (if (cleanName cap).length > maxFilenameLength then
                dropTrailingUnderscores ((cleanName cap).take maxFilenameLength)
              else cleanName cap) := by
          intro P h1 h2
          by_cases hl : (cleanName cap).length > maxFilenameLength
          · rw [if_pos hl]
            exact h1
          · rw [if_neg hl]
            exact h2
        have hres_name : ∀ c ∈ (if (cleanName cap).length > maxFilenameLength then
              dropTrailingUnderscores ((cleanName cap).take maxFilenameLength)
            else cleanName cap), reservedChar c = false := by
          apply hname (fun nm => ∀ c ∈ nm, reservedChar c = false)
          · intro c hc
            exact cleanName_not_reserved cap c
              (List.take_subset _ _ (mem_dropTrailing _ c hc))
          · exact cleanName_not_reserved cap
        have hhd_name : (if (cleanName cap).length > maxFilenameLength then
              dropTrailingUnderscores ((cleanName cap).take maxFilenameLength)
            else cleanName cap).head? = some c0 := by
          apply hname (fun nm => nm.head? = some c0)
          · refine dropTrailing_head _ c0 ?_ hc0u
            rw [take_head? (cleanName cap) maxFilenameLength (by decide)]
            exact hc0
          · exact hc0
        have hname_ne : (if (cleanName cap).length > maxFilenameLength then
              dropTrailingUnderscores ((cleanName cap).take maxFilenameLength)
            else cleanName cap) ≠ [] := by
          intro h
          rw [h] at hhd_name
          simp at hhd_name
        have hchA : List.Chain' (fun a b => a = '#' → b = '_')
            (if (cleanName cap).length > maxFilenameLength then
              dropTrailingUnderscores ((cleanName cap).take maxFilenameLength)
            else cleanName cap) := by
          apply hname (fun nm => List.Chain' (fun a b => a = '#' → b = '_') nm)
          · exact chain'_dropTrailing _ (chain'_take _ _
              (cleanName_chain '#' (Or.inl rfl) cap))
          · exact cleanName_chain '#' (Or.inl rfl) cap
        have hchB : List.Chain' (fun a b => a = '@' → b = '_')
            (if (cleanName cap).length > maxFilenameLength then
              dropTrailingUnderscores ((cleanName cap).take maxFilenameLength)
            else cleanName cap) := by
          apply hname (fun nm => List.Chain' (fun a b => a = '@' → b = '_') nm)
          · exact chain'_dropTrailing _ (chain'_take _ _
              (cleanName_chain '@' (Or.inr rfl) cap))
          · exact cleanName_chain '@' (Or.inr rfl) cap
        have heq : sanitizeFilenameL (some cap) code =
            (if (cleanName cap).length > maxFilenameLength then
              dropTrailingUnderscores ((cleanName cap).take maxFilenameLength)
            else cleanName cap) ++ '_' :: code := by
          simp only [sanitizeFilenameL]
          rw [if_neg hjt, if_neg hn0]
        rw [heq]
        refine ⟨?_, ?_, ?_, ?_, ?_, ?_⟩
        · intro c hc
          rcases List.mem_append.mp hc with h | h
          · exact hres_name c h
          · rcases List.mem_cons.mp h with h | h
            · rw [h]
              decide
            · exact hres c h
        · intro c hc
          rw [head?_append_left _ _ hname_ne, hhd_name] at hc
          have hcc : c0 = c := Option.some.inj hc
          rw [← hcc]
          exact hc0s
        · intro c hc
          rw [getLast?_append_right _ _ (List.cons_ne_nil _ _),
            show ('_' :: code).getLast? = code.getLast? from
              getLast?_append_right ['_'] code hne] at hc
          exact hlst c hc
        · apply List.chain'_append.mpr
          refine ⟨chain_merge _ hchA hchB, ?_, ?_⟩
          · apply List.chain'_cons'.mpr
            refine ⟨?_, hch⟩
            intro y _ hm
            rcases hm with hm | hm <;> exact absurd hm (by decide)
          · intro x _ y hy
            intro _
            have h : '_' = y := by simpa using hy
            exact h.symm
        · intro h
          exact Option.noConfusion h
        · intro cap' hcap' hall
          exfalso
          have hcc : cap = cap' := Option.some.inj hcap'
          subst hcc
          exact hn0' (allSpace_cleanName cap hall)

/-- **C4 counterexample.**  The unamended claim quantifies over every
shortCode; at the absent caption and the shortCode `"/"` the function
returns `"/"` verbatim, which contains the reserved character `/` the
claim forbids (the claim is even self-contradictory there, since it also
demands the result equal the shortCode). -/
theorem sanitizeFilename_c4_counterexample :
    sanitizeFilenameL none ['/'] = ['/'] ∧
    '/' ∈ sanitizeFilenameL none ['/'] ∧ reservedChar '/' = true :=
  ⟨rfl, by decide, by decide⟩

theorem sanitizeFilename_spec_c4_witness :
    (∀ c ∈ sanitizeFilenameL (some ("hi #tag".toList)) ("Ab1".toList),
      reservedChar c = false) ∧
    (∀ c, (sanitizeFilenameL (some ("hi #tag".toList)) ("Ab1".toList)).head? =
      some c → sepTrim c = false) ∧
    (∀ c, (sanitizeFilenameL (some ("hi #tag".toList)) ("Ab1".toList)).getLast? =
      some c → sepTrim c = false) ∧
    List.Chain' (fun a b => (a = '#' ∨ a = '@') → b = '_')
      (sanitizeFilenameL (some ("hi #tag".toList)) ("Ab1".toList)) ∧
    ((some ("hi #tag".toList) : Option (List Char)) = none →
      sanitizeFilenameL (some ("hi #tag".toList)) ("Ab1".toList) = "Ab1".toList) ∧
    (∀ cap, (some ("hi #tag".toList) : Option (List Char)) = some cap →
      (∀ c ∈ cap, jsSpace c = true) →
      sanitizeFilenameL (some ("hi #tag".toList)) ("Ab1".toList) = "Ab1".toList) :=
  sanitizeFilename_spec_c4 (some ("hi #tag".toList)) ("Ab1".toList)
    (by decide) (by decide) (by decide) (by decide)

end IgDl
